import Mathlib

/-!
Verification of the chess rules engine in `main.go` (package main of the
`chess` repository).  The Go program is shallowly embedded below:

* machine `int` coordinates become `Int`;
* the `[8][8]*ChessPiece` board becomes `Fin 8 → Fin 8 → Option ChessPiece`,
  with `bget`/`bset` wrappers taking `Int` coordinates (a Go out-of-range array
  access would panic; every board access performed by the embedded code is
  guarded by the same range checks the Go code performs, and `bget` returns
  `none` on the never-taken out-of-range branch);
* the `float64` clock fields (`whiteTime`, `blackTime`) and the `rng` field
  are omitted from the state: the clocks are wall-time presentation state and
  `rng` is never read by any game-logic function;
* `isMoveLegal`, `isInCheck` and `isSquareAttacked` are mutually recursive in
  the Go source through the castling branch (`isMoveLegal` of a king calls
  `isInCheck`, which calls `isSquareAttacked`, which calls `isMoveLegal` on
  every attacking piece, including the enemy king).  That recursion is not
  structurally bounded — on some boards the Go functions re-enter themselves
  with identical arguments and never return — so the embedding threads an
  explicit `fuel : Nat` through the trio.  `fuel` counts the remaining allowed
  nesting depth of the castling `isInCheck` recursion (it is consumed only on
  the `isMoveLegal → isInCheck` edge); a result of `none` means the Go call is
  still recursing past that depth.  A dichotomy theorem below shows that depth
  2 already decides every call: either the fuel-2 computation produces a value
  (and all larger fuels agree), or no fuel ever suffices (the Go code loops
  forever);
* fallible operations (Go `nil`-pointer dereferences, reachable only outside
  the call contracts of the program) return `Option`.
-/

namespace Chess

/-- Go `type Color int` with `Black = 0`, `White = 1`. -/
inductive Color where
  | black
  | white
deriving DecidableEq, Repr

/-- Go `1 - c`, the opposing color. -/
def Color.opp : Color → Color
  | .black => .white
  | .white => .black

/-- Integer code of a color, as stored in the Go `winner` field
(`Black = 0`, `White = 1`). -/
def Color.code : Color → Int
  | .black => 0
  | .white => 1

/-- Go `type PieceType int` (declaration order Pawn, Bishop, Rook, Knight,
Queen, King). -/
inductive PieceType where
  | pawn
  | bishop
  | rook
  | knight
  | queen
  | king
deriving DecidableEq, Repr

/-- Go `pieceValues` map: Pawn 1, Knight 3, Bishop 3, Rook 5, Queen 9,
King 100. -/
def pieceValues : PieceType → Int
  | .pawn => 1
  | .knight => 3
  | .bishop => 3
  | .rook => 5
  | .queen => 9
  | .king => 100

/-- Go `type ChessPiece struct`; `kind` embeds the Go field `Type`. -/
structure ChessPiece where
  kind : PieceType
  color : Color
  SpriteID : Int
  HasMoved : Bool
deriving DecidableEq, Repr

/-- Go `[8][8]*ChessPiece`, indexed rank (`y`) first, then file (`x`),
exactly like `g.board[y][x]`. -/
abbrev Board := Fin 8 → Fin 8 → Option ChessPiece

/-- Read `b[y][x]`.  All reads performed by the embedded program are guarded
by the range checks of the Go code; the `none` fallback branch models the
out-of-range access Go would panic on and is never taken by those reads. -/
def bget (b : Board) (x y : Int) : Option ChessPiece :=
  if h : 0 ≤ x ∧ x < 8 ∧ 0 ≤ y ∧ y < 8 then
    b ⟨y.toNat, by omega⟩ ⟨x.toNat, by omega⟩
  else none

/-- Write `b[y][x] = v` (identity out of range, mirroring that the embedded
program only writes in-range cells). -/
def bset (b : Board) (x y : Int) (v : Option ChessPiece) : Board :=
  if 0 ≤ x ∧ x < 8 ∧ 0 ≤ y ∧ y < 8 then
    fun ry rx => if ry.val = y.toNat ∧ rx.val = x.toNat then v else b ry rx
  else b

/-- Go `type Game struct`.  Field-for-field embedding of the pure state;
`whiteTime`/`blackTime` (float64 wall-clock counters) and `rng` (never read
by the game logic) are omitted. -/
structure Game where
  board : Board
  selectedX : Int
  selectedY : Int
  activeColor : Color
  hustlerName : String
  currentDialog : String
  gameOver : Bool
  gameStarted : Bool
  wager : Int
  initialMins : Int
  epX : Int
  epY : Int
  winner : Int
  moveCount : Int
  frankThinkTime : Int
  promoting : Bool
  promX : Int
  promY : Int

/-- Go helper `abs`. -/
def iabs (v : Int) : Int := if v < 0 then -v else v

/-- The per-axis step of `isPathClear`: `0` when the delta is zero, otherwise
`d / abs(d)` exactly as the Go code computes it. -/
def pstep (d : Int) : Int := if d = 0 then 0 else d / iabs d

/-- The loop body of Go `isPathClear`: starting from `(cx, cy)`, walk by
`(sx, sy)` until `(tx, ty)` is reached, requiring every visited square to be
empty.  The Go `for` loop has no bound; `fuel` is set by `isPathClear` to the
exact number of steps the walk needs on the axis-aligned or diagonal inputs
the program calls it on. -/
def pathClearAux (b : Board) (tx ty sx sy : Int) : Int → Int → Nat → Bool
  | _, _, 0 => true
  | cx, cy, n + 1 =>
    if cx = tx ∧ cy = ty then true
    else if (bget b cx cy).isSome then false
    else pathClearAux b tx ty sx sy (cx + sx) (cy + sy) n

/-- Go `isPathClear`: every square strictly between `(fx, fy)` and
`(tx, ty)` is empty.  Every call the program makes is rook-, bishop- or
pawn-aligned, so the walk reaches the target in `max |dx| |dy|` steps. -/
def isPathClear (b : Board) (fx fy tx ty : Int) : Bool :=
  let dx := tx - fx
  let dy := ty - fy
  let sx := pstep dx
  let sy := pstep dy
  pathClearAux b tx ty sx sy (fx + sx) (fy + sy) (max (iabs dx).toNat (iabs dy).toNat)

/-- Go `map[Color]int{White: 6, Black: 1}`: a pawn's starting rank index. -/
def pawnStart : Color → Int
  | .white => 6
  | .black => 1

/-- The file indices `0..7` in scan order. -/
def range8 : List Int := [0, 1, 2, 3, 4, 5, 6, 7]

/-- All board squares `(x, y)` in the scan order used by every Go loop pair
(`y` outer ascending, `x` inner ascending). -/
def allSquares : List (Int × Int) :=
  (range8.map fun y => range8.map fun x => (x, y)).flatten

/-- Sequential short-circuit scan, the shape of every Go piece-scanning loop:
evaluate `f` on each element in order; `some true` returns immediately,
`some false` continues, reaching the end yields `some false`.  A `none`
(fuel exhaustion inside `f`) aborts the whole scan, mirroring that the Go
program would still be inside that call. -/
def firstSome {α : Type} (f : α → Option Bool) : List α → Option Bool
  | [] => some false
  | a :: l =>
    match f a with
    | none => none
    | some true => some true
    | some false => firstSome f l

/-- Go `findKing` scan inside `isInCheck`: the last square (in scan order)
holding a king of color `c`, exactly like the Go loop that keeps overwriting
`kx, ky`. -/
def findKing (b : Board) (c : Color) : Option (Int × Int) :=
  allSquares.foldl
    (fun acc sq =>
      match bget b sq.1 sq.2 with
      | some p => if p.kind == .king && p.color == c then some sq else acc
      | none => acc)
    none

/-!
`isMoveLegal`, `isInCheck` and `isSquareAttacked` are mutually recursive in
Go solely through the castling branch.  The embedding breaks that single
recursive edge by abstracting it into a check oracle `chk : Color → Option
Bool` ("the result of `isInCheck` one castling-nesting level deeper"): the
three `*With` bodies below are verbatim the Go function bodies, and
`isInCheckF` then ties the knot by structural recursion on `fuel`, the
allowed nesting depth — the depth-0 oracle answers `none` ("the Go call is
still recursing past this depth").
-/

/-- Go `isMoveLegal` body (pseudo-legality per piece kind); `chk` stands for
the `g.isInCheck(p.Color)` call of the castling branch. -/
def legalWith (chk : Color → Option Bool) (g : Game) (p : ChessPiece)
    (fx fy tx ty : Int) : Option Bool :=
  if tx < 0 ∨ 7 < tx ∨ ty < 0 ∨ 7 < ty then some false
  else
    let target := bget g.board tx ty
    let sameC : Bool :=
      match target with
      | some t => t.color == p.color
      | none => false
    if sameC then some false
    else
      let dx := iabs (tx - fx)
      let dy := iabs (ty - fy)
      match p.kind with
      | .knight => some ((dx == 2 && dy == 1) || (dx == 1 && dy == 2))
      | .rook => some ((fx == tx || fy == ty) && isPathClear g.board fx fy tx ty)
      | .bishop => some ((dx == dy) && isPathClear g.board fx fy tx ty)
      | .queen =>
        some ((dx == dy || fx == tx || fy == ty) && isPathClear g.board fx fy tx ty)
      | .king =>
        if dx ≤ 1 ∧ dy ≤ 1 then some true
        else if p.HasMoved = true ∨ fy ≠ ty ∨ dx ≠ 2 then some false
        else
          match chk p.color with
          | none => none
          | some true => some false
          | some false =>
            let rx : Int := if fx < tx then 7 else 0
            match bget g.board rx fy with
            | none => some false
            | some rook =>
              some ((rook.kind == .rook) && !rook.HasMoved &&
                isPathClear g.board fx fy rx fy)
      | .pawn =>
        let dir : Int := if p.color == .black then 1 else -1
        if fx = tx ∧ ty = fy + dir ∧ target = none then some true
        else if fx = tx ∧ ty = fy + 2 * dir ∧ fy = pawnStart p.color ∧
            target = none ∧ isPathClear g.board fx fy tx ty = true then some true
        else if dx = 1 ∧ ty = fy + dir ∧
            (target ≠ none ∨ (tx = g.epX ∧ ty = g.epY)) then some true
        else some false

/-- Go `isSquareAttacked` body: some piece of `attackerColor` has a
pseudo-legal move onto `(x, y)`. -/
def attackWith (chk : Color → Option Bool) (g : Game) (x y : Int)
    (attackerColor : Color) : Option Bool :=
  firstSome
    (fun sq =>
      match bget g.board sq.1 sq.2 with
      | some p =>
        if p.color == attackerColor then legalWith chk g p sq.1 sq.2 x y
        else some false
      | none => some false)
    allSquares

/-- Go `isInCheck` body: locate `c`'s king (last in scan order; `false` when
absent) and ask whether the opposing side attacks its square. -/
def checkWith (chk : Color → Option Bool) (g : Game) (c : Color) : Option Bool :=
  match findKing g.board c with
  | none => some false
  | some sq => attackWith chk g sq.1 sq.2 c.opp

/-- Go `isInCheck`, at castling-recursion depth `fuel`. -/
def isInCheckF : Nat → Game → Color → Option Bool
  | 0, g, c => checkWith (fun _ => none) g c
  | m + 1, g, c => checkWith (isInCheckF m g) g c

/-- The check oracle available at depth `fuel`: one level is consumed by the
`isMoveLegal → isInCheck` castling edge. -/
def chkAt (fuel : Nat) (g : Game) : Color → Option Bool :=
  match fuel with
  | 0 => fun _ => none
  | m + 1 => isInCheckF m g

/-- Go `isMoveLegal`, at castling-recursion depth `fuel`. -/
def isMoveLegalF (fuel : Nat) (g : Game) (p : ChessPiece) (fx fy tx ty : Int) :
    Option Bool :=
  legalWith (chkAt fuel g) g p fx fy tx ty

/-- Go `isSquareAttacked`, at castling-recursion depth `fuel`. -/
def isSquareAttackedF (fuel : Nat) (g : Game) (x y : Int) (attackerColor : Color) :
    Option Bool :=
  attackWith (chkAt fuel g) g x y attackerColor

/-- `isInCheckF` unfolds to the Go `isInCheck` body with the depth-`fuel`
oracle. -/
theorem isInCheckF_eq (fuel : Nat) (g : Game) (c : Color) :
    isInCheckF fuel g c = checkWith (chkAt fuel g) g c := by
  cases fuel <;> rfl

/-- The simulated board of a test move, exactly the two Go assignments
`g.board[ty][tx], g.board[fy][fx] = p, nil` (written left to right). -/
def simBoard (b : Board) (p : ChessPiece) (fx fy tx ty : Int) : Board :=
  bset (bset b tx ty (some p)) fx fy none

/-- All (origin, destination) square pairs in the scan order of the Go
quadruple loops (`fy, fx, ty, tx`, each ascending). -/
def allQuads : List ((Int × Int) × (Int × Int)) :=
  (allSquares.map fun o => allSquares.map fun d => (o, d)).flatten

/-- Go `hasLegalMoves`: scan every piece of color `c` and every destination;
a candidate succeeds when it is pseudo-legal and the simulated position does
not leave `c` in check. -/
def hasLegalMovesF (fuel : Nat) (g : Game) (c : Color) : Option Bool :=
  firstSome
    (fun q =>
      match bget g.board q.1.1 q.1.2 with
      | some p =>
        if p.color == c then
          match isMoveLegalF fuel g p q.1.1 q.1.2 q.2.1 q.2.2 with
          | none => none
          | some false => some false
          | some true =>
            match isInCheckF fuel
                { g with board := simBoard g.board p q.1.1 q.1.2 q.2.1 q.2.2 } c with
            | none => none
            | some chk => some (!chk)
        else some false
      | none => some false)
    allQuads

/-- Go `executeMove`.  Returns `none` exactly on the `nil`-pointer
dereferences Go would panic on (no piece at the origin; a castling king move
with no piece on the corner square) — both unreachable under the caller's
legality contract.  The `fmt.Printf` move logging is an output side effect
with no state impact and is not modeled. -/
def executeMoveF (g : Game) (fx fy tx ty : Int) : Option Game :=
  match bget g.board fx fy with
  | none => none
  | some p =>
    let castleStep : Option Board :=
      if p.kind == .king && iabs (tx - fx) == 2 then
        let rx : Int := if fx < tx then 7 else 0
        let rtx : Int := if fx < tx then 5 else 3
        match bget g.board rx fy with
        | none => none
        | some rook =>
          some (bset (bset g.board rtx fy (some { rook with HasMoved := true })) rx fy none)
      else some g.board
    match castleStep with
    | none => none
    | some b1 =>
      let b2 := if p.kind == .pawn && tx == g.epX && ty == g.epY then
        bset b1 tx fy none else b1
      let newEp : Int × Int :=
        if p.kind == .pawn && iabs (ty - fy) == 2 then (fx, fy + (ty - fy) / 2)
        else (-1, -1)
      let moved : ChessPiece := { p with HasMoved := true }
      let promoted : Bool := p.kind == .pawn && (ty == 0 || ty == 7)
      let placed : ChessPiece :=
        if promoted && p.color == .black then
          { moved with kind := .queen, SpriteID := 4 }
        else moved
      let b3 := bset (bset b2 tx ty (some placed)) fx fy none
      let promoting2 : Bool := g.promoting || (promoted && p.color == .white)
      some { g with
        board := b3
        epX := newEp.1
        epY := newEp.2
        promoting := promoting2
        promX := if promoted && p.color == .white then tx else g.promX
        promY := if promoted && p.color == .white then ty else g.promY
        activeColor := if promoting2 then g.activeColor else g.activeColor.opp
        moveCount := g.moveCount + 1
        frankThinkTime := 0 }

/-- The terminal-position check at the top of Go `Update` (after the
game-started / game-over / promotion early returns): when the side to move
has no legal move the game ends, with a winner recorded only when that side
is in check.  (The `wallet` global mutation accompanying the dialog is
presentation state outside the `Game` struct and is not modeled.)  When legal
moves exist the state is returned unchanged and `Update` proceeds to move
input, modeled separately by `submitClickF` and `frankTurnF`. -/
def updateEndCheckF (fuel : Nat) (g : Game) : Option Game :=
  match hasLegalMovesF fuel g g.activeColor with
  | none => none
  | some true => some g
  | some false =>
    match isInCheckF fuel g g.activeColor with
    | none => none
    | some false => some { g with gameOver := true }
    | some true =>
      if g.activeColor == .white then
        some { g with
          gameOver := true
          winner := 0
          currentDialog := "MATE! Give me my money." }
      else
        some { g with
          gameOver := true
          winner := 1
          currentDialog := "MATE! Take the cash." }

/-- The White mouse-click handler of Go `Update` (the body guarded by
`IsMouseButtonJustPressed`), given the already-computed board coordinates
`(gx, gy)` of the click.  Out-of-range clicks do nothing; a first in-range
click selects a White piece; a second click attempts the move, executing it
only when it is pseudo-legal and does not leave White in check, and clears
the selection either way.  `none` models the `nil` dereference Go would hit
if the selected square were empty (impossible: selection only ever stores a
square holding a White piece and the board cannot change in between). -/
def submitClickF (fuel : Nat) (g : Game) (gx gy : Int) : Option Game :=
  if 0 ≤ gx ∧ gx < 8 ∧ 0 ≤ gy ∧ gy < 8 then
    if g.selectedX = -1 then
      match bget g.board gx gy with
      | some q =>
        if q.color == .white then some { g with selectedX := gx, selectedY := gy }
        else some g
      | none => some g
    else
      match bget g.board g.selectedX g.selectedY with
      | none => none
      | some p =>
        match isMoveLegalF fuel g p g.selectedX g.selectedY gx gy with
        | none => none
        | some false => some { g with selectedX := -1, selectedY := -1 }
        | some true =>
          match isInCheckF fuel
              { g with board := simBoard g.board p g.selectedX g.selectedY gx gy }
              .white with
          | none => none
          | some true => some { g with selectedX := -1, selectedY := -1 }
          | some false =>
            match executeMoveF g g.selectedX g.selectedY gx gy with
            | none => none
            | some g2 => some { g2 with selectedX := -1, selectedY := -1 }
  else some g

/-- A scored candidate move of the heuristic opponent (Go local
`type move struct`). -/
structure ScoredMove where
  fx : Int
  fy : Int
  tx : Int
  ty : Int
  score : Int
deriving DecidableEq, Repr

/-- Sequential scan that collects produced elements in order.  `f` returns
`none` for fuel exhaustion (aborting the scan, mirroring a Go call that never
returns), `some none` to skip the candidate and `some (some b)` to keep
`b`. -/
def collectSome {α β : Type} (f : α → Option (Option β)) : List α → Option (List β)
  | [] => some []
  | a :: l =>
    match f a with
    | none => none
    | some none => collectSome f l
    | some (some b) =>
      match collectSome f l with
      | none => none
      | some bs => some (b :: bs)

/-- The scoring body of the heuristic loop in Go `Update`, for one candidate
quadruple: pseudo-legality, the danger/capture bonuses computed on the
pre-move board, then the self-check filter and the into-danger penalty on the
simulated position. -/
def scoreCandidateF (fuel : Nat) (g : Game) (q : (Int × Int) × (Int × Int)) :
    Option (Option ScoredMove) :=
  match bget g.board q.1.1 q.1.2 with
  | some p =>
    if p.color == .black then
      match isMoveLegalF fuel g p q.1.1 q.1.2 q.2.1 q.2.2 with
      | none => none
      | some false => some none
      | some true =>
        let orig := bget g.board q.2.1 q.2.2
        match isSquareAttackedF fuel g q.1.1 q.1.2 .white with
        | none => none
        | some inDanger =>
          let s1 : Int := if inDanger then pieceValues p.kind * 2 else 0
          let s2 : Int := match orig with
            | some o => pieceValues o.kind + 2
            | none => 0
          let g2 := { g with board := simBoard g.board p q.1.1 q.1.2 q.2.1 q.2.2 }
          match isInCheckF fuel g2 .black with
          | none => none
          | some true => some none
          | some false =>
            match isSquareAttackedF fuel g2 q.2.1 q.2.2 .white with
            | none => none
            | some intoDanger =>
              let s3 : Int := if intoDanger then pieceValues p.kind + 1 else 0
              some (some ⟨q.1.1, q.1.2, q.2.1, q.2.2, s1 + s2 - s3⟩)
    else some none
  | none => some none

/-- Go: the `smartMoves` list built by the heuristic quadruple loop, in
enumeration order (ascending origin rank, origin file, destination rank,
destination file). -/
def smartMovesF (fuel : Nat) (g : Game) : Option (List ScoredMove) :=
  collectSome (scoreCandidateF fuel g) allQuads

/-- Go: `best := smartMoves[0]` then keep any strictly greater score — the
first-enumerated move wins ties.  `none` on the empty list (Go then skips the
whole block). -/
def pickBest : List ScoredMove → Option ScoredMove
  | [] => none
  | m :: l => some (l.foldl (fun best cur => if best.score < cur.score then cur else best) m)

/-- Go: the scripted Scholar's-mate opening sequence
(`{{4,1,4,3},{3,0,7,4},{5,0,2,3},{7,4,5,6}}`). -/
def scholarScript : List ((Int × Int) × (Int × Int)) :=
  [((4, 1), (4, 3)), ((3, 0), (7, 4)), ((5, 0), (2, 3)), ((7, 4), (5, 6))]

/-- The script loop of Go `Update`: play the first scripted move whose origin
holds a Black piece, is pseudo-legal and does not leave Black in check.
`some none` = no scripted move applied (fall through to the heuristic);
`some (some g')` = move executed; `none` = fuel exhausted. -/
def scriptScanF (fuel : Nat) (g : Game) : List ((Int × Int) × (Int × Int)) →
    Option (Option Game)
  | [] => some none
  | m :: rest =>
    match bget g.board m.1.1 m.1.2 with
    | some p =>
      if p.color == .black then
        match isMoveLegalF fuel g p m.1.1 m.1.2 m.2.1 m.2.2 with
        | none => none
        | some false => scriptScanF fuel g rest
        | some true =>
          match isInCheckF fuel
              { g with board := simBoard g.board p m.1.1 m.1.2 m.2.1 m.2.2 } .black with
          | none => none
          | some true => scriptScanF fuel g rest
          | some false =>
            match executeMoveF g m.1.1 m.1.2 m.2.1 m.2.2 with
            | none => none
            | some g2 => some (some g2)
      else scriptScanF fuel g rest
    | none => scriptScanF fuel g rest

/-- The heuristic phase of Go `Update`: build `smartMoves`, execute the best
one when the list is nonempty, otherwise do nothing. -/
def frankHeuristicStepF (fuel : Nat) (g : Game) : Option Game :=
  match smartMovesF fuel g with
  | none => none
  | some l =>
    match pickBest l with
    | none => some g
    | some b => executeMoveF g b.fx b.fy b.tx b.ty

/-- Go: the thinking-delay limit, scaled by move count. -/
def thinkLimit (g : Game) : Int :=
  if g.moveCount < 6 then 60 else if g.moveCount < 16 then 120 else 180

/-- The Black (engine) branch of Go `Update` (the `blackTime` wall-clock
decrement and its timeout are presentation state, not modeled): bump the
thinking counter; once it reaches the limit, try the opening script, then the
heuristic. -/
def frankTurnF (fuel : Nat) (g : Game) : Option Game :=
  let g1 := { g with frankThinkTime := g.frankThinkTime + 1 }
  if thinkLimit g1 ≤ g1.frankThinkTime then
    match scriptScanF fuel g1 scholarScript with
    | none => none
    | some (some g2) => some g2
    | some none => frankHeuristicStepF fuel g1
  else some g1

/-! ### Concrete states used by the witnesses -/

/-- The empty board. -/
def emptyBoard : Board := fun _ _ => none

/-- Build a board from a placement list `(x, y, piece)`. -/
def mkBoard (l : List (Int × Int × ChessPiece)) : Board := fun y x =>
  (l.find? (fun e => e.1 = (x : Int) ∧ e.2.1 = (y : Int))).map (·.2.2)

/-- The non-board fields exactly as Go `NewGame(5, 1)` initializes them,
with the given board. -/
def baseGame (b : Board) : Game :=
  { board := b
    selectedX := -1
    selectedY := -1
    activeColor := .white
    hustlerName := "4-Move-Frank"
    currentDialog := "Eyes on the board, kid."
    gameOver := false
    gameStarted := true
    wager := 5
    initialMins := 1
    epX := -1
    epY := -1
    winner := -1
    moveCount := 0
    frankThinkTime := 0
    promoting := false
    promX := 0
    promY := 0 }

/-- An unmoved white king (sprite 11, as `createPiece` assigns). -/
def wKing : ChessPiece := ⟨.king, .white, 11, false⟩

/-- An unmoved black king. -/
def bKing : ChessPiece := ⟨.king, .black, 5, false⟩

/-- An unmoved white pawn. -/
def wPawn : ChessPiece := ⟨.pawn, .white, 6, false⟩

/-- An unmoved black pawn. -/
def bPawn : ChessPiece := ⟨.pawn, .black, 0, false⟩

/-- An unmoved white rook. -/
def wRook : ChessPiece := ⟨.rook, .white, 8, false⟩

/-- A board on which the castling recursion of `isInCheck` never terminates:
both kings unmoved on rank 0, two files apart.  Checking whether the black
king "attacks" the white king's square enters the castling branch, which asks
whether the black king is in check, which asks whether the white king attacks
the black king's square, which re-enters the identical white check — forever. -/
def kingsTrap : Board := mkBoard [(0, 0, wKing), (2, 0, bKing)]

/-! ### Scan-order square lists -/

theorem mem_range8 {x : Int} : x ∈ range8 ↔ 0 ≤ x ∧ x < 8 := by
  simp only [range8, List.mem_cons, List.not_mem_nil, or_false]
  omega

theorem mem_allSquares {s : Int × Int} :
    s ∈ allSquares ↔ 0 ≤ s.1 ∧ s.1 < 8 ∧ 0 ≤ s.2 ∧ s.2 < 8 := by
  obtain ⟨x, y⟩ := s
  simp only [allSquares, List.mem_flatten, List.mem_map]
  constructor
  · rintro ⟨_, ⟨y0, hy0, rfl⟩, hx⟩
    simp only [List.mem_map] at hx
    obtain ⟨x0, hx0, he⟩ := hx
    obtain ⟨rfl, rfl⟩ := Prod.mk.injEq .. ▸ he
    exact ⟨(mem_range8.1 hx0).1, (mem_range8.1 hx0).2,
      (mem_range8.1 hy0).1, (mem_range8.1 hy0).2⟩
  · rintro ⟨hx0, hx8, hy0, hy8⟩
    exact ⟨range8.map fun x => (x, y), ⟨y, mem_range8.2 ⟨hy0, hy8⟩, rfl⟩,
      List.mem_map.2 ⟨x, mem_range8.2 ⟨hx0, hx8⟩, rfl⟩⟩

theorem mem_allQuads {q : (Int × Int) × (Int × Int)} :
    q ∈ allQuads ↔ q.1 ∈ allSquares ∧ q.2 ∈ allSquares := by
  obtain ⟨o, d⟩ := q
  simp only [allQuads, List.mem_flatten, List.mem_map]
  constructor
  · rintro ⟨_, ⟨o0, ho0, rfl⟩, hd⟩
    simp only [List.mem_map] at hd
    obtain ⟨d0, hd0, he⟩ := hd
    obtain ⟨rfl, rfl⟩ := Prod.mk.injEq .. ▸ he
    exact ⟨ho0, hd0⟩
  · rintro ⟨ho, hd⟩
    exact ⟨allSquares.map fun d => (o, d), ⟨o, ho, rfl⟩, List.mem_map.2 ⟨d, hd, rfl⟩⟩

/-! ### Scan combinator lemmas -/

theorem firstSome_some {α : Type} {f : α → Option Bool} :
    ∀ {l : List α} {b : Bool}, firstSome f l = some b →
      (b = true ↔ ∃ x ∈ l, f x = some true)
  | [], b, h => by
    simp only [firstSome] at h
    cases h
    simp
  | a :: l, b, h => by
    simp only [firstSome] at h
    match hfa : f a with
    | none => rw [hfa] at h; cases h
    | some true =>
      rw [hfa] at h
      cases h
      simp only [List.mem_cons, true_iff]
      exact ⟨a, Or.inl rfl, hfa⟩
    | some false =>
      rw [hfa] at h
      rw [firstSome_some h]
      constructor
      · rintro ⟨x, hx, hfx⟩
        exact ⟨x, List.mem_cons_of_mem a hx, hfx⟩
      · rintro ⟨x, hx, hfx⟩
        rcases List.mem_cons.1 hx with rfl | hx
        · rw [hfa] at hfx; cases hfx
        · exact ⟨x, hx, hfx⟩

theorem firstSome_none_split {α : Type} {f : α → Option Bool} :
    ∀ {l : List α}, firstSome f l = none →
      ∃ l1 x l2, l = l1 ++ x :: l2 ∧ (∀ y ∈ l1, f y = some false) ∧ f x = none
  | [], h => by simp [firstSome] at h
  | a :: l, h => by
    simp only [firstSome] at h
    match hfa : f a with
    | none => exact ⟨[], a, l, rfl, by simp, hfa⟩
    | some true => rw [hfa] at h; cases h
    | some false =>
      rw [hfa] at h
      obtain ⟨l1, x, l2, rfl, h1, h2⟩ := firstSome_none_split h
      refine ⟨a :: l1, x, l2, rfl, ?_, h2⟩
      intro y hy
      rcases List.mem_cons.1 hy with rfl | hy
      · exact hfa
      · exact h1 y hy

theorem firstSome_none_of {α : Type} {f : α → Option Bool} :
    ∀ {l1 : List α} {x : α} {l2 : List α},
      (∀ y ∈ l1, f y = some false ∨ f y = none) → f x = none →
      firstSome f (l1 ++ x :: l2) = none
  | [], x, l2, _, hx => by simp [firstSome, hx]
  | a :: l1, x, l2, h1, hx => by
    simp only [List.cons_append, firstSome]
    rcases h1 a (List.mem_cons_self a l1) with ha | ha
    · rw [ha]
      exact firstSome_none_of (fun y hy => h1 y (List.mem_cons_of_mem a hy)) hx
    · rw [ha]

theorem firstSome_all_false {α : Type} {f : α → Option Bool} :
    ∀ {l : List α}, (∀ x ∈ l, f x = some false) → firstSome f l = some false
  | [], _ => rfl
  | a :: l, h => by
    simp only [firstSome, h a (List.mem_cons_self a l)]
    exact firstSome_all_false fun y hy => h y (List.mem_cons_of_mem a hy)

theorem firstSome_mono {α : Type} {f f2 : α → Option Bool}
    (hf : ∀ x b, f x = some b → f2 x = some b) :
    ∀ {l : List α} {b : Bool}, firstSome f l = some b → firstSome f2 l = some b
  | [], b, h => by simpa [firstSome] using h
  | a :: l, b, h => by
    simp only [firstSome] at h ⊢
    match hfa : f a with
    | none => rw [hfa] at h; cases h
    | some true => rw [hfa] at h; rw [hf a true hfa]; exact h
    | some false => rw [hfa] at h; rw [hf a false hfa]; exact firstSome_mono hf h

/-! ### Board access lemmas -/

theorem bget_bset_same {b : Board} {x y : Int} {v : Option ChessPiece}
    (h : 0 ≤ x ∧ x < 8 ∧ 0 ≤ y ∧ y < 8) : bget (bset b x y v) x y = v := by
  simp only [bget, bset, if_pos h, dif_pos h]
  simp

theorem bget_bset_ne {b : Board} {x y x2 y2 : Int} {v : Option ChessPiece}
    (h : x ≠ x2 ∨ y ≠ y2) : bget (bset b x y v) x2 y2 = bget b x2 y2 := by
  by_cases h1 : 0 ≤ x ∧ x < 8 ∧ 0 ≤ y ∧ y < 8
  · by_cases h2 : 0 ≤ x2 ∧ x2 < 8 ∧ 0 ≤ y2 ∧ y2 < 8
    · simp only [bget, bset, if_pos h1, dif_pos h2]
      have : ¬((y2.toNat : Nat) = y.toNat ∧ (x2.toNat : Nat) = x.toNat) := by omega
      simp [this]
    · simp [bget, bset, dif_neg h2]
  · simp [bset, if_neg h1]

theorem bget_empty (x y : Int) : bget emptyBoard x y = none := by
  unfold bget emptyBoard
  split <;> rfl

/-- On the empty board no side has a candidate move at all, so the legal-move
scan returns `false` at every recursion budget. -/
theorem hasLegalMovesF_empty (fuel : Nat) (c : Color) :
    hasLegalMovesF fuel (baseGame emptyBoard) c = some false := by
  rw [hasLegalMovesF]
  apply firstSome_all_false
  intro q hq
  have hb : bget (baseGame emptyBoard).board q.1.1 q.1.2 = none :=
    bget_empty q.1.1 q.1.2
  rw [hb]

/-! ### Path-walk characterizations -/

theorem pstep_pos {d : Int} (h : 0 < d) : pstep d = 1 := by
  unfold pstep iabs
  rw [if_neg (by omega), if_neg (by omega)]
  exact Int.ediv_self (by omega)

theorem pstep_neg {d : Int} (h : d < 0) : pstep d = -1 := by
  unfold pstep iabs
  rw [if_neg (by omega), if_pos (by omega), Int.ediv_neg, Int.ediv_self (by omega)]

/-- Rightward horizontal walk: clear iff every square from `cx` up to (but
excluding) `tx` is empty. -/
theorem pathClearAux_right (b : Board) (tx y : Int) :
    ∀ (n : Nat) (cx : Int), cx ≤ tx → tx - cx ≤ n →
      (pathClearAux b tx y 1 0 cx y n = true ↔
        ∀ x : Int, cx ≤ x → x < tx → bget b x y = none)
  | 0, cx, h1, h2 => by
    have : cx = tx := by omega
    subst this
    simp only [pathClearAux, true_iff]
    intro x hx1 hx2
    omega
  | n + 1, cx, h1, h2 => by
    rw [pathClearAux]
    by_cases he : cx = tx
    · subst he
      rw [if_pos ⟨rfl, rfl⟩]
      simp only [true_iff]
      intro x hx1 hx2
      omega
    · rw [if_neg (by exact fun hc => he hc.1)]
      cases hb : bget b cx y with
      | some q =>
        simp only [hb, Option.isSome_some, if_true, Bool.false_eq_true, false_iff]
        intro hall
        have := hall cx le_rfl (by omega)
        rw [hb] at this
        cases this
      | none =>
        simp only [hb, Option.isSome_none, Bool.false_eq_true, if_false, add_zero]
        rw [pathClearAux_right b tx y n (cx + 1) (by omega) (by omega)]
        constructor
        · intro hall x hx1 hx2
          rcases eq_or_lt_of_le hx1 with rfl | hlt
          · exact hb
          · exact hall x (by omega) hx2
        · intro hall x hx1 hx2
          exact hall x (by omega) hx2

/-- Leftward horizontal walk: clear iff every square from `cx` down to (but
excluding) `tx` is empty. -/
theorem pathClearAux_left (b : Board) (tx y : Int) :
    ∀ (n : Nat) (cx : Int), tx ≤ cx → cx - tx ≤ n →
      (pathClearAux b tx y (-1) 0 cx y n = true ↔
        ∀ x : Int, tx < x → x ≤ cx → bget b x y = none)
  | 0, cx, h1, h2 => by
    have : cx = tx := by omega
    subst this
    simp only [pathClearAux, true_iff]
    intro x hx1 hx2
    omega
  | n + 1, cx, h1, h2 => by
    rw [pathClearAux]
    by_cases he : cx = tx
    · subst he
      rw [if_pos ⟨rfl, rfl⟩]
      simp only [true_iff]
      intro x hx1 hx2
      omega
    · rw [if_neg (by exact fun hc => he hc.1)]
      cases hb : bget b cx y with
      | some q =>
        simp only [hb, Option.isSome_some, if_true, Bool.false_eq_true, false_iff]
        intro hall
        have := hall cx (by omega) le_rfl
        rw [hb] at this
        cases this
      | none =>
        simp only [hb, Option.isSome_none, Bool.false_eq_true, if_false, add_zero]
        rw [show cx + -1 = cx - 1 from by ring,
          pathClearAux_left b tx y n (cx - 1) (by omega) (by omega)]
        constructor
        · intro hall x hx1 hx2
          rcases eq_or_lt_of_le hx2 with rfl | hlt
          · exact hb
          · exact hall x hx1 (by omega)
        · intro hall x hx1 hx2
          exact hall x hx1 (by omega)

/-- Go `isPathClear` on a horizontal segment: true iff every square strictly
between the endpoints is empty. -/
theorem isPathClear_horiz (b : Board) (fx tx y : Int) :
    isPathClear b fx y tx y = true ↔
      ∀ x : Int, min fx tx < x → x < max fx tx → bget b x y = none := by
  simp only [isPathClear]
  rw [sub_self, show pstep 0 = 0 from rfl]
  rcases lt_trichotomy fx tx with hlt | heq | hgt
  · rw [pstep_pos (by omega)]
    have hm : max (iabs (tx - fx)).toNat (iabs (0 : Int)).toNat = (tx - fx).toNat := by
      unfold iabs
      rw [if_neg (by omega)]
      simp
    rw [hm, show y + 0 = y from by ring,
      pathClearAux_right b tx y (tx - fx).toNat (fx + 1) (by omega) (by omega)]
    constructor
    · intro hall x h1 h2
      exact hall x (by omega) (by omega)
    · intro hall x h1 h2
      exact hall x (by omega) (by omega)
  · subst heq
    rw [sub_self]
    simp only [show pstep 0 = 0 from rfl, show iabs 0 = 0 from rfl]
    constructor
    · intro _ x h1 h2
      omega
    · intro _
      rfl
  · rw [pstep_neg (by omega)]
    have hm : max (iabs (tx - fx)).toNat (iabs (0 : Int)).toNat = (fx - tx).toNat := by
      unfold iabs
      rw [if_pos (by omega), if_neg (by omega)]
      simp only [Int.toNat_zero, Nat.max_zero]
      omega
    rw [hm, show y + 0 = y from by ring, show fx + -1 = fx - 1 from by ring,
      pathClearAux_left b tx y (fx - tx).toNat (fx - 1) (by omega) (by omega)]
    constructor
    · intro hall x h1 h2
      exact hall x (by omega) (by omega)
    · intro hall x h1 h2
      exact hall x (by omega) (by omega)

/-- Go `isPathClear` on a pawn double step: true iff the skipped-over square
is empty. -/
theorem isPathClear_pawn2 (b : Board) (fx fy dir : Int) (hdir : dir = 1 ∨ dir = -1) :
    isPathClear b fx fy fx (fy + 2 * dir) = true ↔ bget b fx (fy + dir) = none := by
  simp only [isPathClear]
  rw [sub_self, show pstep 0 = 0 from rfl, show fy + 2 * dir - fy = 2 * dir from by ring]
  rcases hdir with rfl | rfl
  · rw [show pstep (2 * 1) = 1 from rfl]
    have hm : max (iabs (0 : Int)).toNat (iabs (2 * 1 : Int)).toNat = 2 := rfl
    rw [hm, show fx + 0 = fx from by ring]
    rw [pathClearAux]
    rw [if_neg (by intro hc; omega)]
    cases hb : bget b fx (fy + 1) with
    | some q => simp [hb]
    | none =>
      simp only [hb, Option.isSome_none, Bool.false_eq_true, if_false]
      rw [pathClearAux, if_pos ⟨by ring, by ring⟩]
      simp [hb]
  · rw [show pstep (2 * -1) = -1 from rfl]
    have hm : max (iabs (0 : Int)).toNat (iabs (2 * -1 : Int)).toNat = 2 := rfl
    rw [hm, show fx + 0 = fx from by ring]
    rw [pathClearAux]
    rw [if_neg (by intro hc; omega)]
    cases hb : bget b fx (fy + -1) with
    | some q => simp [hb]
    | none =>
      simp only [hb, Option.isSome_none, Bool.false_eq_true, if_false]
      rw [pathClearAux, if_pos ⟨by ring, by ring⟩]
      simp [hb]

/-- A three-way `if` chain of successes equals `some true` exactly when one
of the conditions holds. -/
theorem ifchain3_eq_some_true {c1 c2 c3 : Prop}
    [Decidable c1] [Decidable c2] [Decidable c3] :
    ((if c1 then (some true : Option Bool) else if c2 then some true
      else if c3 then some true else some false) = some true) ↔ (c1 ∨ c2 ∨ c3) := by
  split_ifs with h1 h2 h3 <;> simp_all

/-- The pawn direction expression is `1` or `-1`. -/
theorem pawnDirCases (c : Color) :
    (if c = Color.black then (1 : Int) else -1) = 1 ∨
      (if c = Color.black then (1 : Int) else -1) = -1 := by
  by_cases h : c = .black <;> simp [h]

/-! ### Claim C3 -/

/-- C3: for a pawn `p` on the board, `isMoveLegal` holds exactly for a
one-square forward move onto an empty square (White toward decreasing rank,
Black toward increasing), a two-square forward move from the starting rank
(6 for White, 1 for Black) with the skipped square and the destination both
empty, or a one-square diagonal forward move onto an enemy-occupied square or
the en-passant target — always with the destination on the board and not
occupied by a same-colored piece. -/
theorem claim3 (fuel : Nat) (g : Game) (p : ChessPiece) (fx fy tx ty : Int)
    (hk : p.kind = .pawn) (hp : bget g.board fx fy = some p) :
    isMoveLegalF fuel g p fx fy tx ty = some true ↔
      ((0 ≤ tx ∧ tx < 8 ∧ 0 ≤ ty ∧ ty < 8) ∧
       (∀ t, bget g.board tx ty = some t → t.color ≠ p.color) ∧
       ((fx = tx ∧ ty = fy + (if p.color = Color.black then (1 : Int) else -1) ∧
          bget g.board tx ty = none) ∨
        (fx = tx ∧ ty = fy + 2 * (if p.color = Color.black then (1 : Int) else -1) ∧
          fy = pawnStart p.color ∧ bget g.board tx ty = none ∧
          bget g.board fx (fy + (if p.color = Color.black then (1 : Int) else -1)) = none) ∨
        (iabs (tx - fx) = 1 ∧
          ty = fy + (if p.color = Color.black then (1 : Int) else -1) ∧
          (bget g.board tx ty ≠ none ∨ (tx = g.epX ∧ ty = g.epY))))) := by
  rw [isMoveLegalF, legalWith]
  by_cases hin : tx < 0 ∨ 7 < tx ∨ ty < 0 ∨ 7 < ty
  · rw [if_pos hin]
    constructor
    · intro h
      exact absurd h (by simp)
    · rintro ⟨hr, -, -⟩
      exfalso
      omega
  · rw [if_neg hin]
    simp only [hk, beq_iff_eq]
    rcases htc : bget g.board tx ty with _ | t
    · rw [if_neg (by simp)]
      rw [ifchain3_eq_some_true]
      constructor
      · rintro (⟨h1, h2, h3⟩ | ⟨h1, h2, h3, h4, h5⟩ | ⟨h1, h2, h3⟩)
        · exact ⟨by omega, by simp, Or.inl ⟨h1, h2, rfl⟩⟩
        · refine ⟨by omega, by simp, Or.inr (Or.inl ⟨h1, h2, h3, rfl, ?_⟩)⟩
          rw [← h1, h2] at h5
          exact (isPathClear_pawn2 g.board fx fy _ (pawnDirCases p.color)).1 h5
        · exact ⟨by omega, by simp, Or.inr (Or.inr ⟨h1, h2, h3⟩)⟩
      · rintro ⟨-, -, (⟨h1, h2, h3⟩ | ⟨h1, h2, h3, h4, h5⟩ | ⟨h1, h2, h3⟩)⟩
        · exact Or.inl ⟨h1, h2, rfl⟩
        · refine Or.inr (Or.inl ⟨h1, h2, h3, rfl, ?_⟩)
          rw [← h1, h2]
          exact (isPathClear_pawn2 g.board fx fy _ (pawnDirCases p.color)).2 h5
        · exact Or.inr (Or.inr ⟨h1, h2, h3⟩)
    · by_cases hcol : t.color = p.color
      · rw [if_pos (by simp [hcol])]
        constructor
        · intro h
          exact absurd h (by simp)
        · rintro ⟨-, hnc, -⟩
          exact absurd hcol (hnc t rfl)
      · rw [if_neg (by simp [hcol])]
        rw [ifchain3_eq_some_true]
        constructor
        · rintro (⟨h1, h2, h3⟩ | ⟨h1, h2, h3, h4, h5⟩ | ⟨h1, h2, h3⟩)
          · cases h3
          · cases h4
          · refine ⟨by omega, fun t2 ht2 => (Option.some.inj ht2) ▸ hcol,
              Or.inr (Or.inr ⟨h1, h2, by simp⟩)⟩
        · rintro ⟨-, -, (⟨h1, h2, h3⟩ | ⟨h1, h2, h3, h4, h5⟩ | ⟨h1, h2, h3⟩)⟩
          · cases h3
          · cases h4
          · exact Or.inr (Or.inr ⟨h1, h2, by simp⟩)

/-- C3 witness: from the opening position of the pawn on e2, the double step
e2–e4 is legal and matches the spec's characterization at that input. -/
theorem claim3_witness :
    isMoveLegalF 0 (baseGame (mkBoard [(4, 6, wPawn)])) wPawn 4 6 4 4 = some true ↔
      ((0 ≤ (4 : Int) ∧ (4 : Int) < 8 ∧ 0 ≤ (4 : Int) ∧ (4 : Int) < 8) ∧
       (∀ t, bget (baseGame (mkBoard [(4, 6, wPawn)])).board 4 4 = some t →
          t.color ≠ wPawn.color) ∧
       (((4 : Int) = 4 ∧ (4 : Int) = 6 + (if wPawn.color = Color.black then (1 : Int) else -1) ∧
          bget (baseGame (mkBoard [(4, 6, wPawn)])).board 4 4 = none) ∨
        ((4 : Int) = 4 ∧ (4 : Int) = 6 + 2 * (if wPawn.color = Color.black then (1 : Int) else -1) ∧
          (6 : Int) = pawnStart wPawn.color ∧
          bget (baseGame (mkBoard [(4, 6, wPawn)])).board 4 4 = none ∧
          bget (baseGame (mkBoard [(4, 6, wPawn)])).board 4
            (6 + (if wPawn.color = Color.black then (1 : Int) else -1)) = none) ∨
        (iabs ((4 : Int) - 4) = 1 ∧
          (4 : Int) = 6 + (if wPawn.color = Color.black then (1 : Int) else -1) ∧
          (bget (baseGame (mkBoard [(4, 6, wPawn)])).board 4 4 ≠ none ∨
            ((4 : Int) = (baseGame (mkBoard [(4, 6, wPawn)])).epX ∧
              (4 : Int) = (baseGame (mkBoard [(4, 6, wPawn)])).epY))))) :=
  claim3 0 (baseGame (mkBoard [(4, 6, wPawn)])) wPawn 4 6 4 4 rfl (by decide)

/-! ### Oracle analysis of the castling recursion

`legalWith` consults its check oracle only in the castling branch.  The
`legalShape` function computes, oracle-free, whether a `legalWith` call is
oracle-independent (`fixed b`) or reaches the castling check (`castle rc`,
with `rc` the rook-and-path condition evaluated when the check comes back
clean).  Everything about fuel monotonicity and divergence follows from
this one decomposition. -/

/-- Shape of a `legalWith` computation: a fixed result, or a castling check
followed by the rook condition `rc`. -/
inductive LegalShape where
  | fixed (b : Bool)
  | castle (rc : Bool)

/-- The oracle-free shape of `legalWith chk g p fx fy tx ty`. -/
def legalShape (g : Game) (p : ChessPiece) (fx fy tx ty : Int) : LegalShape :=
  if tx < 0 ∨ 7 < tx ∨ ty < 0 ∨ 7 < ty then .fixed false
  else
    let target := bget g.board tx ty
    let sameC : Bool :=
      match target with
      | some t => t.color == p.color
      | none => false
    if sameC then .fixed false
    else
      let dx := iabs (tx - fx)
      let dy := iabs (ty - fy)
      match p.kind with
      | .knight => .fixed ((dx == 2 && dy == 1) || (dx == 1 && dy == 2))
      | .rook => .fixed ((fx == tx || fy == ty) && isPathClear g.board fx fy tx ty)
      | .bishop => .fixed ((dx == dy) && isPathClear g.board fx fy tx ty)
      | .queen =>
        .fixed ((dx == dy || fx == tx || fy == ty) && isPathClear g.board fx fy tx ty)
      | .king =>
        if dx ≤ 1 ∧ dy ≤ 1 then .fixed true
        else if p.HasMoved = true ∨ fy ≠ ty ∨ dx ≠ 2 then .fixed false
        else
          .castle (match bget g.board (if fx < tx then 7 else 0) fy with
            | none => false
            | some rook =>
              (rook.kind == .rook) && !rook.HasMoved &&
                isPathClear g.board fx fy (if fx < tx then 7 else 0) fy)
      | .pawn =>
        let dir : Int := if p.color == .black then 1 else -1
        if fx = tx ∧ ty = fy + dir ∧ target = none then .fixed true
        else if fx = tx ∧ ty = fy + 2 * dir ∧ fy = pawnStart p.color ∧
            target = none ∧ isPathClear g.board fx fy tx ty = true then .fixed true
        else if dx = 1 ∧ ty = fy + dir ∧
            (target ≠ none ∨ (tx = g.epX ∧ ty = g.epY)) then .fixed true
        else .fixed false

/-- `legalWith` factors through its shape: a fixed shape ignores the oracle,
the castle shape consults it once. -/
theorem legalWith_shape (chk : Color → Option Bool) (g : Game) (p : ChessPiece)
    (fx fy tx ty : Int) :
    legalWith chk g p fx fy tx ty =
      (match legalShape g p fx fy tx ty with
        | .fixed b => some b
        | .castle rc =>
          match chk p.color with
          | none => none
          | some true => some false
          | some false => some rc) := by
  simp only [legalWith, legalShape]
  by_cases h1 : tx < 0 ∨ 7 < tx ∨ ty < 0 ∨ 7 < ty
  · rw [if_pos h1, if_pos h1]
  · rw [if_neg h1, if_neg h1]
    rcases hsc : (match bget g.board tx ty with
      | some t => t.color == p.color
      | none => false) with _ | _
    · have hscn : ¬((match bget g.board tx ty with
          | some t => t.color == p.color
          | none => false) = true) := by
        rw [hsc]
        simp
      rw [if_neg hscn, if_neg hscn]
      cases hk : p.kind
      · split_ifs <;> rfl
      · rfl
      · rfl
      · rfl
      · rfl
      · by_cases h2 : iabs (tx - fx) ≤ 1 ∧ iabs (ty - fy) ≤ 1
        · rw [if_pos h2, if_pos h2]
        · rw [if_neg h2, if_neg h2]
          by_cases h3 : p.HasMoved = true ∨ fy ≠ ty ∨ iabs (tx - fx) ≠ 2
          · rw [if_pos h3, if_pos h3]
          · rw [if_neg h3, if_neg h3]
            rcases chk p.color with _ | bc
            · rfl
            · cases bc
              · rcases bget g.board (if fx < tx then 7 else 0) fy with _ | rook
                · rfl
                · rfl
              · rfl
    · rw [if_pos hsc, if_pos hsc]

/-- `chkLe k1 k2`: every answer of oracle `k1` is reproduced by `k2`. -/
def chkLe (k1 k2 : Color → Option Bool) : Prop :=
  ∀ c b, k1 c = some b → k2 c = some b

theorem legalWith_mono {k1 k2 : Color → Option Bool}
    (hk : chkLe k1 k2) {g : Game} {p : ChessPiece} {fx fy tx ty : Int} {b : Bool}
    (h : legalWith k1 g p fx fy tx ty = some b) :
    legalWith k2 g p fx fy tx ty = some b := by
  rw [legalWith_shape] at h ⊢
  rcases hs : legalShape g p fx fy tx ty with bb | rc
  · simp only [hs] at h ⊢
    exact h
  · simp only [hs] at h ⊢
    rcases hc : k1 p.color with _ | bc
    · rw [hc] at h
      exact absurd h (by simp)
    · rw [hk p.color bc hc]
      rw [hc] at h
      cases bc
      · simp only at h ⊢
        exact h
      · simp only at h ⊢
        exact h

theorem legalWith_none_source {k : Color → Option Bool} {g : Game}
    {p : ChessPiece} {fx fy tx ty : Int}
    (h : legalWith k g p fx fy tx ty = none) :
    (∃ rc, legalShape g p fx fy tx ty = .castle rc) ∧ k p.color = none := by
  rw [legalWith_shape] at h
  rcases hs : legalShape g p fx fy tx ty with bb | rc
  · rw [hs] at h
    exact absurd h (by simp)
  · refine ⟨⟨rc, rfl⟩, ?_⟩
    rcases hc : k p.color with _ | bc
    · rfl
    · rw [hs, hc] at h
      cases bc
      · exact absurd h (by simp)
      · exact absurd h (by simp)

theorem legalWith_none_of_castle {k : Color → Option Bool} {g : Game}
    {p : ChessPiece} {fx fy tx ty : Int} {rc : Bool}
    (hs : legalShape g p fx fy tx ty = .castle rc) (hk : k p.color = none) :
    legalWith k g p fx fy tx ty = none := by
  simp only [legalWith_shape, hs, hk]

theorem Color.opp_opp (c : Color) : c.opp.opp = c := by
  cases c <;> rfl

theorem attackWith_mono {k1 k2 : Color → Option Bool} (hk : chkLe k1 k2)
    {g : Game} {x y : Int} {ac : Color} {b : Bool}
    (h : attackWith k1 g x y ac = some b) : attackWith k2 g x y ac = some b := by
  rw [attackWith] at h ⊢
  refine firstSome_mono ?_ h
  intro sq bb hf
  rcases hb : bget g.board sq.1 sq.2 with _ | p
  · simp only [hb] at hf ⊢
    exact hf
  · simp only [hb] at hf ⊢
    by_cases hpc : (p.color == ac) = true
    · rw [if_pos hpc] at hf ⊢
      exact legalWith_mono hk hf
    · rw [if_neg hpc] at hf ⊢
      exact hf

theorem checkWith_mono {k1 k2 : Color → Option Bool} (hk : chkLe k1 k2)
    {g : Game} {c : Color} {b : Bool}
    (h : checkWith k1 g c = some b) : checkWith k2 g c = some b := by
  rw [checkWith] at h ⊢
  rcases hf : findKing g.board c with _ | sq
  · simp only [hf] at h ⊢
    exact h
  · simp only [hf] at h ⊢
    exact attackWith_mono hk h

/-- Any value produced at fuel `n` is reproduced at fuel `n + 1`. -/
theorem isInCheckF_mono_succ :
    ∀ (n : Nat) (g : Game) (c : Color) (b : Bool),
      isInCheckF n g c = some b → isInCheckF (n + 1) g c = some b := by
  intro n
  induction n with
  | zero =>
    intro g c b h
    exact checkWith_mono (fun c2 b2 h2 => Option.noConfusion h2) h
  | succ m ih =>
    intro g c b h
    exact checkWith_mono (fun c2 b2 h2 => ih g c2 b2 h2) h

/-- Fuel monotonicity: values never change as the recursion allowance
grows. -/
theorem isInCheckF_mono {n m : Nat} (hle : n ≤ m) {g : Game} {c : Color}
    {b : Bool} (h : isInCheckF n g c = some b) : isInCheckF m g c = some b := by
  induction m, hle using Nat.le_induction with
  | base => exact h
  | succ k hk ih => exact isInCheckF_mono_succ k g c b ih

theorem chkAt_mono {n m : Nat} (hle : n ≤ m) (g : Game) :
    chkLe (chkAt n g) (chkAt m g) := by
  intro c b hc
  cases n with
  | zero => exact absurd hc (by simp [chkAt])
  | succ k =>
    cases m with
    | zero => omega
    | succ l => exact isInCheckF_mono (by omega) hc

theorem attackWith_none_source {k : Color → Option Bool} {g : Game}
    {x y : Int} {ac : Color} (h : attackWith k g x y ac = none) :
    k ac = none := by
  rw [attackWith] at h
  obtain ⟨l1, s, l2, hsplit, hpre, hs⟩ := firstSome_none_split h
  rcases hb : bget g.board s.1 s.2 with _ | p
  · simp only [hb] at hs
    exact absurd hs (by simp)
  · simp only [hb] at hs
    by_cases hpc : (p.color == ac) = true
    · rw [if_pos hpc] at hs
      have h2 := (legalWith_none_source hs).2
      have hpe : p.color = ac := by simpa using hpc
      rwa [hpe] at h2
    · rw [if_neg hpc] at hs
      exact absurd hs (by simp)

theorem checkWith_none_source {k : Color → Option Bool} {g : Game} {c : Color}
    (h : checkWith k g c = none) : k c.opp = none := by
  rw [checkWith] at h
  rcases hf : findKing g.board c with _ | sq
  · simp only [hf] at h
    exact absurd h (by simp)
  · simp only [hf] at h
    exact attackWith_none_source h

/-- An exhausted attack scan stays exhausted for every comparable oracle that
answers `none` on the attacker color: the prefix of the scan keeps behaving,
and the castling trigger they both die on keeps dying. -/
theorem attackWith_none_transfer {k1 k2 : Color → Option Bool} {g : Game}
    {x y : Int} {ac : Color} (h : attackWith k1 g x y ac = none)
    (hcomp : chkLe k1 k2 ∨ chkLe k2 k1) (hk2 : k2 ac = none) :
    attackWith k2 g x y ac = none := by
  rw [attackWith] at h ⊢
  obtain ⟨l1, s, l2, hsplit, hpre, hs⟩ := firstSome_none_split h
  rw [hsplit]
  apply firstSome_none_of
  · intro e he
    have hfe := hpre e he
    rcases hb : bget g.board e.1 e.2 with _ | p
    · left
      simp only [hb]
    · simp only [hb] at hfe ⊢
      by_cases hpc : (p.color == ac) = true
      · rw [if_pos hpc] at hfe ⊢
        rcases hcomp with hcc | hcc
        · exact Or.inl (legalWith_mono hcc hfe)
        · rcases hv : legalWith k2 g p e.1 e.2 x y with _ | bv
          · exact Or.inr rfl
          · left
            have h1 := legalWith_mono hcc hv
            rw [hfe] at h1
            obtain rfl := (Option.some.inj h1).symm
            rfl
      · rw [if_neg hpc] at hfe ⊢
        exact Or.inl hfe
  · rcases hb : bget g.board s.1 s.2 with _ | p
    · simp only [hb] at hs
      exact absurd hs (by simp)
    · simp only [hb] at hs ⊢
      by_cases hpc : (p.color == ac) = true
      · rw [if_pos hpc] at hs ⊢
        obtain ⟨⟨rc, hsh⟩, -⟩ := legalWith_none_source hs
        apply legalWith_none_of_castle hsh
        have hpe : p.color = ac := by simpa using hpc
        rw [hpe]
        exact hk2
      · rw [if_neg hpc] at hs
        exact absurd hs (by simp)

theorem checkWith_none_transfer {k1 k2 : Color → Option Bool} {g : Game}
    {c : Color} (h : checkWith k1 g c = none)
    (hcomp : chkLe k1 k2 ∨ chkLe k2 k1) (hk2 : k2 c.opp = none) :
    checkWith k2 g c = none := by
  rw [checkWith] at h ⊢
  rcases hf : findKing g.board c with _ | sq
  · simp only [hf] at h
    exact absurd h (by simp)
  · simp only [hf] at h ⊢
    exact attackWith_none_transfer h hcomp hk2

/-- The divergence dichotomy: if the check computation exhausts castling
depth 2, it exhausts every depth — the Go `isInCheck` re-enters itself with
identical arguments and never returns. -/
theorem isInCheckF_none_stable {g : Game} {c : Color}
    (h2 : isInCheckF 2 g c = none) : ∀ n, isInCheckF n g c = none := by
  have hA : checkWith (chkAt 2 g) g c = none := by
    rw [← isInCheckF_eq]
    exact h2
  have hB1 : isInCheckF 1 g c.opp = none := checkWith_none_source hA
  have hB : checkWith (chkAt 1 g) g c.opp = none := by
    rw [← isInCheckF_eq]
    exact hB1
  have comp2 : ∀ n, chkLe (chkAt 2 g) (chkAt n g) ∨ chkLe (chkAt n g) (chkAt 2 g) := by
    intro n
    rcases le_total 2 n with hle | hle
    · exact Or.inl (chkAt_mono hle g)
    · exact Or.inr (chkAt_mono hle g)
  have comp1 : ∀ n, chkLe (chkAt 1 g) (chkAt n g) ∨ chkLe (chkAt n g) (chkAt 1 g) := by
    intro n
    rcases le_total 1 n with hle | hle
    · exact Or.inl (chkAt_mono hle g)
    · exact Or.inr (chkAt_mono hle g)
  have main : ∀ n, isInCheckF n g c = none ∧ isInCheckF n g c.opp = none := by
    intro n
    induction n with
    | zero =>
      refine ⟨?_, ?_⟩
      · rw [isInCheckF_eq]
        exact checkWith_none_transfer hA (comp2 0) rfl
      · rw [isInCheckF_eq]
        exact checkWith_none_transfer hB (comp1 0) rfl
    | succ m ih =>
      refine ⟨?_, ?_⟩
      · rw [isInCheckF_eq]
        exact checkWith_none_transfer hA (comp2 (m + 1)) ih.2
      · rw [isInCheckF_eq]
        refine checkWith_none_transfer hB (comp1 (m + 1)) ?_
        show isInCheckF m g c.opp.opp = none
        rw [Color.opp_opp]
        exact ih.1
  intro n
  exact (main n).1

/-- The Go `isInCheck` call on `g`/`c` never returns a value, at any
castling-recursion depth. -/
def inCheckNeverReturns (g : Game) (c : Color) : Prop :=
  ∀ n, isInCheckF n g c = none

/-! ### Claim C10 -/

/-- C10 counterexample: the claim "every call terminates on every board
configuration" is false.  On `kingsTrap` (both kings unmoved, same rank, two
files apart) `isInCheck(White)` enters the black king's castling guard, which
calls `isInCheck(Black)`, which re-enters `isInCheck(White)` with identical
arguments: no castling-recursion depth ever produces an answer. -/
theorem claim10_counterexample :
    inCheckNeverReturns (baseGame kingsTrap) Color.white :=
  isInCheckF_none_stable (by rfl)

/-- C10 (amended): `isMoveLegal`, `isSquareAttacked` and `isInCheck` do NOT
terminate on every board configuration — the mutual recursion through the
castling guard can re-enter itself forever (see the counterexample).  What
holds instead is a depth-2 dichotomy that decides termination: an answer
obtained with castling-recursion depth 2 (depth 3 for the two outer
functions) is the answer at every larger depth, and a depth-2 exhaustion is
an exhaustion at every depth — the Go call never returns. -/
theorem claim10 :
    (∀ (g : Game) (p : ChessPiece) (fx fy tx ty : Int),
      (isMoveLegalF 3 g p fx fy tx ty = none →
        ∀ n, isMoveLegalF n g p fx fy tx ty = none) ∧
      (∀ b, isMoveLegalF 3 g p fx fy tx ty = some b →
        ∀ n, 3 ≤ n → isMoveLegalF n g p fx fy tx ty = some b)) ∧
    (∀ (g : Game) (x y : Int) (ac : Color),
      (isSquareAttackedF 3 g x y ac = none →
        ∀ n, isSquareAttackedF n g x y ac = none) ∧
      (∀ b, isSquareAttackedF 3 g x y ac = some b →
        ∀ n, 3 ≤ n → isSquareAttackedF n g x y ac = some b)) ∧
    (∀ (g : Game) (c : Color),
      (isInCheckF 2 g c = none → ∀ n, isInCheckF n g c = none) ∧
      (∀ b, isInCheckF 2 g c = some b →
        ∀ n, 2 ≤ n → isInCheckF n g c = some b)) := by
  have hchk : ∀ (g : Game) (cc : Color), isInCheckF 2 g cc = none →
      ∀ n, chkAt n g cc = none := by
    intro g cc h n
    cases n with
    | zero => rfl
    | succ m => exact isInCheckF_none_stable h m
  refine ⟨?_, ?_, ?_⟩
  · intro g p fx fy tx ty
    constructor
    · intro h n
      rw [isMoveLegalF] at h ⊢
      obtain ⟨⟨rc, hsh⟩, hnone⟩ := legalWith_none_source h
      exact legalWith_none_of_castle hsh (hchk g p.color hnone n)
    · intro b h n hn
      rw [isMoveLegalF] at h ⊢
      exact legalWith_mono (chkAt_mono hn g) h
  · intro g x y ac
    constructor
    · intro h n
      rw [isSquareAttackedF] at h ⊢
      have hac : chkAt 3 g ac = none := attackWith_none_source h
      refine attackWith_none_transfer h ?_ (hchk g ac hac n)
      rcases le_total 3 n with hle | hle
      · exact Or.inl (chkAt_mono hle g)
      · exact Or.inr (chkAt_mono hle g)
    · intro b h n hn
      rw [isSquareAttackedF] at h ⊢
      exact attackWith_mono (chkAt_mono hn g) h
  · intro g c
    exact ⟨fun h => isInCheckF_none_stable h, fun b h n hn => isInCheckF_mono hn h⟩

/-- C10 witness: on `kingsTrap` even depth 7 yields no answer (the call
diverges), while on the empty board the depth-2 answer ("not in check")
persists at depth 6. -/
theorem claim10_witness :
    isInCheckF 7 (baseGame kingsTrap) Color.white = none ∧
    isInCheckF 6 (baseGame emptyBoard) Color.white = some false :=
  ⟨(claim10.2.2 (baseGame kingsTrap) Color.white).1 (by rfl) 7,
   (claim10.2.2 (baseGame emptyBoard) Color.white).2 false (by rfl) 6 (by omega)⟩

/-! ### Enumeration-order machinery for the opponent selector -/

/-- Strict lexicographic order on squares in scan order: rank (`y`) first,
then file (`x`). -/
def sqLt (a b : Int × Int) : Prop :=
  a.2 < b.2 ∨ (a.2 = b.2 ∧ a.1 < b.1)

instance : DecidableRel sqLt := fun a b => by
  unfold sqLt
  infer_instance

/-- Strict lexicographic order on (origin, destination) quadruples in the
enumeration order of the Go loops: origin rank, origin file, destination
rank, destination file. -/
def quadLt (a b : (Int × Int) × (Int × Int)) : Prop :=
  sqLt a.1 b.1 ∨ (a.1 = b.1 ∧ sqLt a.2 b.2)

instance : DecidableRel quadLt := fun a b => by
  unfold quadLt
  infer_instance

/-- `quadLt` on the coordinates of two scored moves. -/
def moveKeyLt (a b : ScoredMove) : Prop :=
  quadLt ((a.fx, a.fy), (a.tx, a.ty)) ((b.fx, b.fy), (b.tx, b.ty))

theorem pairwise_allSquares : List.Pairwise sqLt allSquares := by
  decide

theorem pairwise_allQuads : List.Pairwise quadLt allQuads := by
  rw [allQuads, List.pairwise_flatten]
  constructor
  · intro l hl
    simp only [List.mem_map] at hl
    obtain ⟨o, ho, rfl⟩ := hl
    exact List.Pairwise.map _ (fun d d' hdd => Or.inr ⟨rfl, hdd⟩) pairwise_allSquares
  · rw [List.pairwise_map]
    refine List.Pairwise.imp ?_ pairwise_allSquares
    intro o o' hoo x hx y hy
    simp only [List.mem_map] at hx hy
    obtain ⟨d, hd, rfl⟩ := hx
    obtain ⟨d', hd2, rfl⟩ := hy
    exact Or.inl hoo

theorem collectSome_mem {α β : Type} {f : α → Option (Option β)} :
    ∀ {l : List α} {out : List β}, collectSome f l = some out →
      ∀ m, m ∈ out ↔ ∃ x ∈ l, f x = some (some m)
  | [], out, h, m => by
    simp only [collectSome, Option.some.injEq] at h
    subst h
    simp
  | a :: l, out, h, m => by
    rw [collectSome] at h
    match hfa : f a with
    | none => rw [hfa] at h; cases h
    | some none =>
      rw [hfa] at h
      rw [collectSome_mem h m]
      constructor
      · rintro ⟨x, hx, hfx⟩
        exact ⟨x, List.mem_cons_of_mem a hx, hfx⟩
      · rintro ⟨x, hx, hfx⟩
        rcases List.mem_cons.1 hx with rfl | hx
        · rw [hfa] at hfx
          cases Option.some.inj hfx
        · exact ⟨x, hx, hfx⟩
    | some (some b) =>
      rw [hfa] at h
      match hcl : collectSome f l with
      | none => rw [hcl] at h; cases h
      | some bs =>
        rw [hcl] at h
        simp only [Option.some.injEq] at h
        subst h
        simp only [List.mem_cons]
        constructor
        · rintro (rfl | hm)
          · exact ⟨a, Or.inl rfl, hfa⟩
          · obtain ⟨x, hx, hfx⟩ := (collectSome_mem hcl m).1 hm
            exact ⟨x, Or.inr hx, hfx⟩
        · rintro ⟨x, hx, hfx⟩
          rcases hx with rfl | hx
          · rw [hfa] at hfx
            exact Or.inl (Option.some.inj (Option.some.inj hfx)).symm
          · exact Or.inr ((collectSome_mem hcl m).2 ⟨x, hx, hfx⟩)

theorem collectSome_all_skip {α β : Type} {f : α → Option (Option β)} :
    ∀ {l : List α}, (∀ x ∈ l, f x = some none) →
      collectSome f l = some ([] : List β)
  | [], _ => rfl
  | a :: l, h => by
    simp only [collectSome, h a (List.mem_cons_self a l)]
    exact collectSome_all_skip fun y hy => h y (List.mem_cons_of_mem a hy)

theorem collectSome_pairwise {α β : Type} {R : α → α → Prop} {S : β → β → Prop}
    {f : α → Option (Option β)}
    (hRS : ∀ x y mx my, f x = some (some mx) → f y = some (some my) →
      R x y → S mx my) :
    ∀ {l : List α} {out : List β}, collectSome f l = some out →
      List.Pairwise R l → List.Pairwise S out
  | [], out, h, _ => by
    simp only [collectSome, Option.some.injEq] at h
    subst h
    exact List.Pairwise.nil
  | a :: l, out, h, hp => by
    rw [collectSome] at h
    rw [List.pairwise_cons] at hp
    match hfa : f a with
    | none => rw [hfa] at h; cases h
    | some none =>
      rw [hfa] at h
      exact collectSome_pairwise hRS h hp.2
    | some (some b) =>
      rw [hfa] at h
      match hcl : collectSome f l with
      | none => rw [hcl] at h; cases h
      | some bs =>
        rw [hcl] at h
        simp only [Option.some.injEq] at h
        subst h
        rw [List.pairwise_cons]
        refine ⟨?_, collectSome_pairwise hRS hcl hp.2⟩
        intro m hm
        obtain ⟨x, hx, hfx⟩ := (collectSome_mem hcl m).1 hm
        exact hRS a x b m hfa hfx (hp.1 x hx)

/-- The Go best-move fold returns the first element achieving the maximal
score: it is a member, every score is `≤` its score, and every earlier
element scores strictly less. -/
theorem pickBest_spec :
    ∀ {l : List ScoredMove} {b : ScoredMove}, pickBest l = some b →
      b ∈ l ∧ (∀ m ∈ l, m.score ≤ b.score) ∧
      ∃ l1 l2, l = l1 ++ b :: l2 ∧ ∀ m ∈ l1, m.score < b.score := by
  have aux : ∀ (l : List ScoredMove) (acc : ScoredMove),
      (l.foldl (fun best cur => if best.score < cur.score then cur else best) acc
          = acc ∧
        ∀ m ∈ l, m.score ≤ acc.score) ∨
      (∃ l1 l2, l = l1 ++
          (l.foldl (fun best cur => if best.score < cur.score then cur else best)
            acc) :: l2 ∧
        acc.score < (l.foldl
          (fun best cur => if best.score < cur.score then cur else best) acc).score ∧
        (∀ m ∈ l1, m.score < (l.foldl
          (fun best cur => if best.score < cur.score then cur else best)
            acc).score) ∧
        (∀ m ∈ l, m.score ≤ (l.foldl
          (fun best cur => if best.score < cur.score then cur else best)
            acc).score)) := by
    intro l
    induction l with
    | nil => intro acc; exact Or.inl ⟨rfl, by simp⟩
    | cons a l ih =>
      intro acc
      simp only [List.foldl_cons]
      by_cases hsa : acc.score < a.score
      · rw [if_pos hsa]
        rcases ih a with ⟨heq, hle⟩ | ⟨l1, l2, hsplit, hlt, hl1, hle⟩
        · rw [heq]
          refine Or.inr ⟨[], l, by simp, hsa, by simp, ?_⟩
          intro m hm
          rcases List.mem_cons.1 hm with rfl | hm
          · exact le_rfl
          · exact hle m hm
        · refine Or.inr ⟨a :: l1, l2, by rw [List.cons_append, ← hsplit], by omega, ?_, ?_⟩
          · intro m hm
            rcases List.mem_cons.1 hm with rfl | hm
            · omega
            · exact hl1 m hm
          · intro m hm
            rcases List.mem_cons.1 hm with rfl | hm
            · omega
            · exact hle m hm
      · rw [if_neg hsa]
        rcases ih acc with ⟨heq, hle⟩ | ⟨l1, l2, hsplit, hlt, hl1, hle⟩
        · rw [heq]
          refine Or.inl ⟨rfl, ?_⟩
          intro m hm
          rcases List.mem_cons.1 hm with rfl | hm
          · omega
          · exact hle m hm
        · refine Or.inr ⟨a :: l1, l2, by rw [List.cons_append, ← hsplit], hlt, ?_, ?_⟩
          · intro m hm
            rcases List.mem_cons.1 hm with rfl | hm
            · omega
            · exact hl1 m hm
          · intro m hm
            rcases List.mem_cons.1 hm with rfl | hm
            · omega
            · exact hle m hm
  intro l b hpb
  cases l with
  | nil => cases hpb
  | cons m l =>
    simp only [pickBest, Option.some.injEq] at hpb
    rcases aux l m with ⟨heq, hle⟩ | ⟨l1, l2, hsplit, hlt, hl1, hle⟩
    · rw [heq] at hpb
      subst hpb
      refine ⟨List.mem_cons_self _ l, ?_, [], l, rfl, by simp⟩
      intro m2 hm2
      rcases List.mem_cons.1 hm2 with rfl | hm2
      · exact le_rfl
      · exact hle m2 hm2
    · rw [hpb] at hsplit hlt hl1 hle
      refine ⟨?_, ?_, m :: l1, l2, ?_, ?_⟩
      · rw [hsplit]
        exact List.mem_cons_of_mem m
          (List.mem_append_right l1 (List.mem_cons_self _ _))
      · intro m2 hm2
        rcases List.mem_cons.1 hm2 with rfl | hm2
        · omega
        · exact hle m2 hm2
      · rw [List.cons_append, ← hsplit]
      · intro m2 hm2
        rcases List.mem_cons.1 hm2 with rfl | hm2
        · omega
        · exact hl1 m2 hm2

/-- The heuristic scoring body produces a scored move exactly under the Go
conditions: a Black piece at the origin, a pseudo-legal move, the self-check
filter passing on the simulated position, with the score assembled from the
danger bonus (origin attacked before the move), the capture bonus, and the
into-danger penalty (destination attacked after the move). -/
theorem scoreCandidateF_some_some {fuel : Nat} {g : Game}
    {q : (Int × Int) × (Int × Int)} {m : ScoredMove} :
    scoreCandidateF fuel g q = some (some m) ↔
      ∃ p, bget g.board q.1.1 q.1.2 = some p ∧ p.color = Color.black ∧
        isMoveLegalF fuel g p q.1.1 q.1.2 q.2.1 q.2.2 = some true ∧
        ∃ d1, isSquareAttackedF fuel g q.1.1 q.1.2 Color.white = some d1 ∧
          isInCheckF fuel
            { g with board := simBoard g.board p q.1.1 q.1.2 q.2.1 q.2.2 }
            Color.black = some false ∧
          ∃ d2, isSquareAttackedF fuel
              { g with board := simBoard g.board p q.1.1 q.1.2 q.2.1 q.2.2 }
              q.2.1 q.2.2 Color.white = some d2 ∧
            m = ⟨q.1.1, q.1.2, q.2.1, q.2.2,
              (if d1 then pieceValues p.kind * 2 else 0) +
              (match bget g.board q.2.1 q.2.2 with
                | some o => pieceValues o.kind + 2
                | none => 0) -
              (if d2 then pieceValues p.kind + 1 else 0)⟩ := by
  constructor
  · intro h
    simp only [scoreCandidateF] at h
    rcases hb : bget g.board q.1.1 q.1.2 with _ | p
    · rw [hb] at h
      exact absurd h (by simp)
    · rw [hb] at h
      simp only at h
      by_cases hc : p.color = Color.black
      · rw [if_pos (by simp [hc])] at h
        rcases hl : isMoveLegalF fuel g p q.1.1 q.1.2 q.2.1 q.2.2 with _ | bl
        · rw [hl] at h
          exact absurd h (by simp)
        · rw [hl] at h
          cases bl
          · exact absurd h (by simp)
          · rcases ha1 : isSquareAttackedF fuel g q.1.1 q.1.2 Color.white
                with _ | d1
            · rw [ha1] at h
              exact absurd h (by simp)
            · rw [ha1] at h
              rcases hk : isInCheckF fuel
                  { g with board := simBoard g.board p q.1.1 q.1.2 q.2.1 q.2.2 }
                  Color.black with _ | bk
              · rw [hk] at h
                exact absurd h (by simp)
              · rw [hk] at h
                cases bk
                · rcases ha2 : isSquareAttackedF fuel
                      { g with
                        board := simBoard g.board p q.1.1 q.1.2 q.2.1 q.2.2 }
                      q.2.1 q.2.2 Color.white with _ | d2
                  · rw [ha2] at h
                    exact absurd h (by simp)
                  · rw [ha2] at h
                    simp only [Option.some.injEq] at h
                    exact ⟨p, rfl, hc, hl, d1, rfl, hk, d2, ha2, h.symm⟩
                · exact absurd h (by simp)
      · rw [if_neg (by simp [hc])] at h
        exact absurd h (by simp)
  · rintro ⟨p, hb, hc, hl, d1, ha1, hk, d2, ha2, rfl⟩
    simp only [scoreCandidateF, hb, (by simp [hc] : (p.color == Color.black) = true),
      if_true, hl, ha1, hk, ha2]

/-! ### Claim C7 -/

/-- C7: the heuristic phase of the opponent selector enumerates Black's fully
legal moves in ascending origin rank, origin file, destination rank,
destination file (the produced list is strictly increasing in that key);
each entry's score is the danger bonus (2 × value of the moving piece if its
origin is currently attacked by White), plus the capture bonus (value of the
captured piece + 2 when the destination holds a piece), minus the
into-danger penalty (value of the moving piece + 1 if the destination is
attacked by White after the move); and the executed move is the one with the
strictly highest score, the first-enumerated (lexicographically least) move
winning ties.  Everything is a pure function of the game state, so the
selector is deterministic. -/
theorem claim7 (fuel : Nat) (g : Game) (l : List ScoredMove)
    (hl : smartMovesF fuel g = some l) :
    List.Pairwise moveKeyLt l ∧
    (∀ m : ScoredMove, m ∈ l ↔
      ((0 ≤ m.fx ∧ m.fx < 8 ∧ 0 ≤ m.fy ∧ m.fy < 8) ∧
       (0 ≤ m.tx ∧ m.tx < 8 ∧ 0 ≤ m.ty ∧ m.ty < 8) ∧
       ∃ p, bget g.board m.fx m.fy = some p ∧ p.color = Color.black ∧
         isMoveLegalF fuel g p m.fx m.fy m.tx m.ty = some true ∧
         ∃ d1, isSquareAttackedF fuel g m.fx m.fy Color.white = some d1 ∧
           isInCheckF fuel
             { g with board := simBoard g.board p m.fx m.fy m.tx m.ty }
             Color.black = some false ∧
           ∃ d2, isSquareAttackedF fuel
               { g with board := simBoard g.board p m.fx m.fy m.tx m.ty }
               m.tx m.ty Color.white = some d2 ∧
             m.score = (if d1 then pieceValues p.kind * 2 else 0) +
               (match bget g.board m.tx m.ty with
                 | some o => pieceValues o.kind + 2
                 | none => 0) -
               (if d2 then pieceValues p.kind + 1 else 0))) ∧
    (∀ b, pickBest l = some b →
      frankHeuristicStepF fuel g = executeMoveF g b.fx b.fy b.tx b.ty ∧
      b ∈ l ∧ (∀ m ∈ l, m.score ≤ b.score) ∧
      (∀ m ∈ l, m.score = b.score → b = m ∨ moveKeyLt b m)) := by
  have hl0 := hl
  rw [smartMovesF] at hl
  have hpw : List.Pairwise moveKeyLt l := by
    refine collectSome_pairwise ?_ hl pairwise_allQuads
    intro x y mx my hfx hfy hR
    obtain ⟨px, -, -, -, dx1, -, -, dx2, -, rfl⟩ := scoreCandidateF_some_some.1 hfx
    obtain ⟨py, -, -, -, dy1, -, -, dy2, -, rfl⟩ := scoreCandidateF_some_some.1 hfy
    exact hR
  refine ⟨hpw, ?_, ?_⟩
  · intro m
    rw [collectSome_mem hl m]
    constructor
    · rintro ⟨⟨⟨fx, fy⟩, ⟨tx, ty⟩⟩, hq, hfq⟩
      obtain ⟨ho, hd⟩ := mem_allQuads.1 hq
      obtain ⟨h1, h2, h3, h4⟩ := mem_allSquares.1 ho
      obtain ⟨h5, h6, h7, h8⟩ := mem_allSquares.1 hd
      obtain ⟨p, hb, hc, hleg, d1, ha1, hk, d2, ha2, rfl⟩ :=
        scoreCandidateF_some_some.1 hfq
      exact ⟨⟨h1, h2, h3, h4⟩, ⟨h5, h6, h7, h8⟩, p, hb, hc, hleg,
        d1, ha1, hk, d2, ha2, rfl⟩
    · rintro ⟨hr1, hr2, p, hb, hc, hleg, d1, ha1, hk, d2, ha2, hs⟩
      refine ⟨((m.fx, m.fy), (m.tx, m.ty)),
        mem_allQuads.2 ⟨mem_allSquares.2 ⟨hr1.1, hr1.2.1, hr1.2.2.1, hr1.2.2.2⟩,
          mem_allSquares.2 ⟨hr2.1, hr2.2.1, hr2.2.2.1, hr2.2.2.2⟩⟩, ?_⟩
      exact scoreCandidateF_some_some.2
        ⟨p, hb, hc, hleg, d1, ha1, hk, d2, ha2, by rw [← hs]⟩
  · intro b hpb
    obtain ⟨hmem, hle, l1, l2, hsplit, hl1⟩ := pickBest_spec hpb
    refine ⟨by simp only [frankHeuristicStepF, hl0, hpb], hmem, hle, ?_⟩
    intro m hm hs
    rw [hsplit] at hm
    rcases List.mem_append.1 hm with hm1 | hm2
    · exact absurd hs (by have := hl1 m hm1; omega)
    · rcases List.mem_cons.1 hm2 with rfl | hm2
      · exact Or.inl rfl
      · refine Or.inr ?_
        rw [hsplit] at hpw
        have := (List.pairwise_append.1 hpw).2.1
        exact (List.pairwise_cons.1 this).1 m hm2

/-- On the empty board the heuristic enumeration collects no move at any
recursion budget. -/
theorem smartMovesF_empty (fuel : Nat) :
    smartMovesF fuel (baseGame emptyBoard) = some [] := by
  rw [smartMovesF]
  apply collectSome_all_skip
  intro q hq
  have hb : bget (baseGame emptyBoard).board q.1.1 q.1.2 = none :=
    bget_empty q.1.1 q.1.2
  rw [scoreCandidateF, hb]

/-- C7 witness: on the empty board the enumerated scored-move list is empty,
and the characterization holds at that input. -/
theorem claim7_witness :
    List.Pairwise moveKeyLt ([] : List ScoredMove) ∧
    (∀ m : ScoredMove, m ∈ ([] : List ScoredMove) ↔
      ((0 ≤ m.fx ∧ m.fx < 8 ∧ 0 ≤ m.fy ∧ m.fy < 8) ∧
       (0 ≤ m.tx ∧ m.tx < 8 ∧ 0 ≤ m.ty ∧ m.ty < 8) ∧
       ∃ p, bget (baseGame emptyBoard).board m.fx m.fy = some p ∧
         p.color = Color.black ∧
         isMoveLegalF 0 (baseGame emptyBoard) p m.fx m.fy m.tx m.ty = some true ∧
         ∃ d1, isSquareAttackedF 0 (baseGame emptyBoard) m.fx m.fy Color.white =
             some d1 ∧
           isInCheckF 0
             { baseGame emptyBoard with
                board := simBoard (baseGame emptyBoard).board p m.fx m.fy m.tx m.ty }
             Color.black = some false ∧
           ∃ d2, isSquareAttackedF 0
               { baseGame emptyBoard with
                  board := simBoard (baseGame emptyBoard).board p m.fx m.fy m.tx m.ty }
               m.tx m.ty Color.white = some d2 ∧
             m.score = (if d1 then pieceValues p.kind * 2 else 0) +
               (match bget (baseGame emptyBoard).board m.tx m.ty with
                 | some o => pieceValues o.kind + 2
                 | none => 0) -
               (if d2 then pieceValues p.kind + 1 else 0))) ∧
    (∀ b, pickBest ([] : List ScoredMove) = some b →
      frankHeuristicStepF 0 (baseGame emptyBoard) =
        executeMoveF (baseGame emptyBoard) b.fx b.fy b.tx b.ty ∧
      b ∈ ([] : List ScoredMove) ∧
      (∀ m ∈ ([] : List ScoredMove), m.score ≤ b.score) ∧
      (∀ m ∈ ([] : List ScoredMove), m.score = b.score → b = m ∨ moveKeyLt b m)) :=
  claim7 0 (baseGame emptyBoard) [] (smartMovesF_empty 0)

/-! ### Claim C1 -/

/-- C1: `hasLegalMoves c` answers `true` exactly when some square holds a
piece of color `c` with a destination whose move is pseudo-legal and whose
simulation (destination takes the piece, origin emptied) leaves `c` not in
check — in particular never on the strength of a move that leaves `c`'s own
king in check. -/
theorem claim1 (fuel : Nat) (g : Game) (c : Color) (b : Bool)
    (h : hasLegalMovesF fuel g c = some b) :
    b = true ↔ ∃ (fx fy tx ty : Int) (p : ChessPiece),
      (0 ≤ fx ∧ fx < 8 ∧ 0 ≤ fy ∧ fy < 8) ∧
      (0 ≤ tx ∧ tx < 8 ∧ 0 ≤ ty ∧ ty < 8) ∧
      bget g.board fx fy = some p ∧ p.color = c ∧
      isMoveLegalF fuel g p fx fy tx ty = some true ∧
      isInCheckF fuel { g with board := simBoard g.board p fx fy tx ty } c =
        some false := by
  rw [hasLegalMovesF] at h
  rw [firstSome_some h]
  constructor
  · rintro ⟨⟨⟨fx, fy⟩, ⟨tx, ty⟩⟩, hq, hf⟩
    obtain ⟨ho, hd⟩ := mem_allQuads.1 hq
    obtain ⟨h1, h2, h3, h4⟩ := mem_allSquares.1 ho
    obtain ⟨h5, h6, h7, h8⟩ := mem_allSquares.1 hd
    simp only at hf
    rcases hb : bget g.board fx fy with _ | p
    · rw [hb] at hf
      exact absurd hf (by simp)
    · rw [hb] at hf
      simp only at hf
      by_cases hc : p.color = c
      · rw [if_pos (by simp [hc])] at hf
        rcases hl : isMoveLegalF fuel g p fx fy tx ty with _ | bl
        · rw [hl] at hf
          exact absurd hf (by simp)
        · rw [hl] at hf
          cases bl
          · exact absurd hf (by simp)
          · rcases hk : isInCheckF fuel
                { g with board := simBoard g.board p fx fy tx ty } c with _ | bk
            · rw [hk] at hf
              exact absurd hf (by simp)
            · rw [hk] at hf
              simp only [Option.some.injEq] at hf
              cases bk
              · exact ⟨fx, fy, tx, ty, p, ⟨h1, h2, h3, h4⟩, ⟨h5, h6, h7, h8⟩,
                  hb, hc, hl, hk⟩
              · exact absurd hf (by simp)
      · rw [if_neg (by simp [hc])] at hf
        exact absurd hf (by simp)
  · rintro ⟨fx, fy, tx, ty, p, hr1, hr2, hb, hc, hl, hk⟩
    refine ⟨⟨⟨fx, fy⟩, ⟨tx, ty⟩⟩,
      mem_allQuads.2 ⟨mem_allSquares.2 ⟨hr1.1, hr1.2.1, hr1.2.2.1, hr1.2.2.2⟩,
        mem_allSquares.2 ⟨hr2.1, hr2.2.1, hr2.2.2.1, hr2.2.2.2⟩⟩, ?_⟩
    simp only [hb, if_pos (by simp [hc] : (p.color == c) = true), hl, hk]
    rfl

/-- C1 witness: a lone white king on a8 = `(0, 0)` has the legal move to
`(1, 0)`, so the scan answers `true` and the existential holds. -/
theorem claim1_witness :
    (true = true) ↔ ∃ (fx fy tx ty : Int) (p : ChessPiece),
      (0 ≤ fx ∧ fx < 8 ∧ 0 ≤ fy ∧ fy < 8) ∧
      (0 ≤ tx ∧ tx < 8 ∧ 0 ≤ ty ∧ ty < 8) ∧
      bget (baseGame (mkBoard [(0, 0, wKing)])).board fx fy = some p ∧
      p.color = Color.white ∧
      isMoveLegalF 0 (baseGame (mkBoard [(0, 0, wKing)])) p fx fy tx ty =
        some true ∧
      isInCheckF 0
        { baseGame (mkBoard [(0, 0, wKing)]) with
            board := simBoard (baseGame (mkBoard [(0, 0, wKing)])).board
              p fx fy tx ty }
        Color.white = some false :=
  claim1 0 (baseGame (mkBoard [(0, 0, wKing)])) Color.white true (by rfl)

/-! ### Claim C4 -/

/-- C4: for a king and an on-board destination not occupied by a same-colored
piece, `isMoveLegal` holds iff the move is one step in any direction (even
onto an attacked square), or a castling move: same rank, two files, king
unmoved, king not currently in check (one castling-recursion level down), the
corner square on the side of travel holds an unmoved rook, and every square
strictly between king and rook is empty.  No condition on the transit or
landing squares being attacked appears. -/
theorem claim4 (m : Nat) (g : Game) (p : ChessPiece) (fx fy tx ty : Int)
    (hk : p.kind = .king) (hp : bget g.board fx fy = some p)
    (hin : 0 ≤ tx ∧ tx < 8 ∧ 0 ≤ ty ∧ ty < 8)
    (hnc : ∀ t, bget g.board tx ty = some t → t.color ≠ p.color) :
    isMoveLegalF (m + 1) g p fx fy tx ty = some true ↔
      ((iabs (tx - fx) ≤ 1 ∧ iabs (ty - fy) ≤ 1) ∨
       (fy = ty ∧ iabs (tx - fx) = 2 ∧ p.HasMoved = false ∧
        isInCheckF m g p.color = some false ∧
        ∃ r, bget g.board (if fx < tx then (7 : Int) else 0) fy = some r ∧
          r.kind = .rook ∧ r.HasMoved = false ∧
          (∀ x : Int, min fx (if fx < tx then (7 : Int) else 0) < x →
            x < max fx (if fx < tx then (7 : Int) else 0) →
            bget g.board x fy = none))) := by
  rw [isMoveLegalF, legalWith,
    show chkAt (m + 1) g = isInCheckF m g from rfl]
  rw [if_neg (by omega)]
  have hsc : (match bget g.board tx ty with
      | some t => t.color == p.color
      | none => false) = false := by
    rcases htc : bget g.board tx ty with _ | t
    · rfl
    · exact beq_eq_false_iff_ne.2 (hnc t htc)
  simp only [hk, hsc, Bool.false_eq_true, if_false]
  by_cases h1 : iabs (tx - fx) ≤ 1 ∧ iabs (ty - fy) ≤ 1
  · rw [if_pos h1]
    exact iff_of_true rfl (Or.inl h1)
  · rw [if_neg h1]
    by_cases h2 : p.HasMoved = true ∨ fy ≠ ty ∨ iabs (tx - fx) ≠ 2
    · rw [if_pos h2]
      constructor
      · intro h
        exact absurd h (by simp)
      · rintro (hr | ⟨hfy, hdx, hmv, -⟩)
        · exact absurd hr h1
        · rcases h2 with hm | hf | hd
          · rw [hmv] at hm
            exact Bool.noConfusion hm
          · exact (hf hfy).elim
          · exact (hd hdx).elim
    · rw [if_neg h2]
      push_neg at h2
      obtain ⟨hmv, hfy, hdx⟩ := h2
      have hmv2 : p.HasMoved = false := by
        revert hmv
        cases p.HasMoved <;> simp
      rcases hc : isInCheckF m g p.color with _ | b
      · constructor
        · intro h
          exact Option.noConfusion h
        · rintro (hr | ⟨-, -, -, hcc, -⟩)
          · exact absurd hr h1
          · exact Option.noConfusion hcc
      · cases b
        · rcases hr : bget g.board (if fx < tx then (7 : Int) else 0) fy with _ | r
          · constructor
            · intro h
              exact absurd h (by simp)
            · rintro (ho | ⟨-, -, -, -, r, hrr, -⟩)
              · exact absurd ho h1
              · exact Option.noConfusion hrr
          · simp only [Option.some.injEq, Bool.and_eq_true, beq_iff_eq,
              Bool.not_eq_true']
            rw [isPathClear_horiz]
            constructor
            · rintro ⟨⟨hk2, hm2⟩, hpath⟩
              exact Or.inr ⟨hfy, hdx, hmv2, by simp, r, rfl, hk2, hm2, hpath⟩
            · rintro (ho | ⟨-, -, -, -, r2, hr2, hk2, hm2, hpath⟩)
              · exact absurd ho h1
              · obtain rfl := hr2
                exact ⟨⟨hk2, hm2⟩, hpath⟩
        · constructor
          · intro h
            exact absurd h (by simp)
          · rintro (ho | ⟨-, -, -, hcc, -⟩)
            · exact absurd ho h1
            · exact Bool.noConfusion (Option.some.inj hcc)

/-- C4 witness: from the standard corner setup (unmoved king e1, unmoved rook
h1, empty f1/g1, no attackers) kingside castling e1–g1 is pseudo-legal. -/
theorem claim4_witness :
    isMoveLegalF 1 (baseGame (mkBoard [(4, 7, wKing), (7, 7, wRook)])) wKing
      4 7 6 7 = some true :=
  (claim4 0 (baseGame (mkBoard [(4, 7, wKing), (7, 7, wRook)])) wKing 4 7 6 7
    rfl (by decide) (by decide)
    (fun t ht => by
      rw [show bget (baseGame (mkBoard [(4, 7, wKing), (7, 7, wRook)])).board 6 7 =
        none from rfl] at ht
      cases ht)).2
    (Or.inr ⟨rfl, by decide, rfl, by rfl, wRook, by decide, rfl, rfl,
      by
        intro x hx1 hx2
        norm_num at hx1 hx2
        interval_cases x <;> rfl⟩)

/-! ### Claim C9 -/

/-- C9: out-of-range coordinates are simply illegal and never crash:
`isMoveLegal` returns `false` for any destination outside `[0,7] × [0,7]`
(at every recursion budget, i.e. without consulting the board or recursing),
and a click whose board coordinates fall outside the 8×8 board leaves the
whole game state unchanged. -/
theorem claim9 :
    (∀ (fuel : Nat) (g : Game) (p : ChessPiece) (fx fy tx ty : Int),
      (tx < 0 ∨ 7 < tx ∨ ty < 0 ∨ 7 < ty) →
      isMoveLegalF fuel g p fx fy tx ty = some false) ∧
    (∀ (fuel : Nat) (g : Game) (gx gy : Int),
      ¬(0 ≤ gx ∧ gx < 8 ∧ 0 ≤ gy ∧ gy < 8) →
      submitClickF fuel g gx gy = some g) := by
  constructor
  · intro fuel g p fx fy tx ty h
    rw [isMoveLegalF, legalWith]
    simp [h]
  · intro fuel g gx gy h
    simp [submitClickF, h]

/-- C9 witness: a concrete off-board pawn destination is rejected, and a
concrete off-board click leaves the fresh game unchanged. -/
theorem claim9_witness :
    isMoveLegalF 0 (baseGame emptyBoard) wPawn 0 6 0 (-1) = some false ∧
    submitClickF 0 (baseGame emptyBoard) 8 3 = some (baseGame emptyBoard) :=
  ⟨claim9.1 0 (baseGame emptyBoard) wPawn 0 6 0 (-1) (by omega),
   claim9.2 0 (baseGame emptyBoard) 8 3 (by omega)⟩

/-! ### Claim C6 -/

/-- C6: after every successful `executeMove`, the en-passant target is the
skipped-over square (origin file, rank midway between origin and destination)
when the move was a pawn double step, and the no-square value `(-1, -1)`
otherwise — so a target set by a double step survives for exactly the one
following move. -/
theorem claim6 (g : Game) (fx fy tx ty : Int) (g2 : Game)
    (h : executeMoveF g fx fy tx ty = some g2) :
    ∃ p, bget g.board fx fy = some p ∧
      g2.epX = (if p.kind = .pawn ∧ iabs (ty - fy) = 2 then fx else -1) ∧
      g2.epY = (if p.kind = .pawn ∧ iabs (ty - fy) = 2 then fy + (ty - fy) / 2 else -1) := by
  match hb : bget g.board fx fy with
  | none => rw [executeMoveF, hb] at h; cases h
  | some p =>
    refine ⟨p, rfl, ?_⟩
    rw [executeMoveF, hb] at h
    simp only at h
    by_cases hc : (p.kind == PieceType.king && iabs (tx - fx) == 2) = true
    · rw [if_pos hc] at h
      match hr : bget g.board (if fx < tx then 7 else 0) fy with
      | none => rw [hr] at h; cases h
      | some rook =>
        rw [hr] at h
        simp only [Option.some.injEq] at h
        subst h
        have hpk : ¬(p.kind = .pawn ∧ iabs (ty - fy) = 2) := by
          intro hpp
          simp [hpp.1] at hc
        simp only [if_neg hpk]
        have hb2 : (p.kind == PieceType.pawn && iabs (ty - fy) == 2) = false := by
          simp only [Bool.and_eq_false_iff, beq_eq_false_iff_ne, ne_eq]
          by_cases hk : p.kind = PieceType.pawn
          · exact Or.inr (fun he => hpk ⟨hk, by omega⟩)
          · exact Or.inl hk
        simp [hb2]
    · rw [if_neg hc] at h
      simp only [Option.some.injEq] at h
      subst h
      by_cases hpp : p.kind = .pawn ∧ iabs (ty - fy) = 2
      · have hb2 : (p.kind == PieceType.pawn && iabs (ty - fy) == 2) = true := by
          simp [hpp.1, hpp.2]
        simp [hb2, hpp]
      · have hb2 : (p.kind == PieceType.pawn && iabs (ty - fy) == 2) = false := by
          simp only [Bool.and_eq_false_iff, beq_eq_false_iff_ne, ne_eq]
          by_cases hk : p.kind = PieceType.pawn
          · exact Or.inr (fun he => hpp ⟨hk, by omega⟩)
          · exact Or.inl hk
        simp [hb2, hpp]

/-- C6 witness: the white pawn double step a2–a4 from a concrete position
sets the en-passant target to the skipped square a3 = `(0, 5)`. -/
theorem claim6_witness :
    ∃ p, bget (baseGame (mkBoard [(0, 6, wPawn)])).board 0 6 = some p ∧
      ((executeMoveF (baseGame (mkBoard [(0, 6, wPawn)])) 0 6 0 4).get (by decide)).epX =
        (if p.kind = PieceType.pawn ∧ iabs ((4 : Int) - 6) = 2 then 0 else -1) ∧
      ((executeMoveF (baseGame (mkBoard [(0, 6, wPawn)])) 0 6 0 4).get (by decide)).epY =
        (if p.kind = PieceType.pawn ∧ iabs ((4 : Int) - 6) = 2 then 6 + ((4 : Int) - 6) / 2
          else -1) := by
  obtain ⟨p, hp, h1, h2⟩ :=
    claim6 (baseGame (mkBoard [(0, 6, wPawn)])) 0 6 0 4 _ (Option.some_get (by decide)).symm
  exact ⟨p, hp, h1, h2⟩

/-! ### Claim C5 -/

/-- C5: executing a diagonal pawn move onto the current en-passant target
removes the enemy pawn from the square behind the destination — same file as
the destination, same rank as the origin — while the destination square
itself receives the capturing pawn. -/
theorem claim5 (g : Game) (p q : ChessPiece) (fx fy tx ty : Int)
    (hp : bget g.board fx fy = some p) (hk : p.kind = .pawn)
    (hepx : tx = g.epX) (hepy : ty = g.epY)
    (hdx : iabs (tx - fx) = 1)
    (hdy : ty = fy + (if p.color = .black then 1 else -1))
    (hq : bget g.board tx fy = some q) (hqk : q.kind = .pawn)
    (hqc : q.color = p.color.opp)
    (hfx : 0 ≤ fx ∧ fx < 8) (hfy : 0 ≤ fy ∧ fy < 8)
    (htx : 0 ≤ tx ∧ tx < 8) (hty : 0 ≤ ty ∧ ty < 8) :
    ∃ g2, executeMoveF g fx fy tx ty = some g2 ∧
      bget g2.board tx fy = none ∧
      ∃ r, bget g2.board tx ty = some r ∧ r.color = p.color := by
  have hfxtx : fx ≠ tx := by simp only [iabs] at hdx; split at hdx <;> omega
  have hfyty : fy ≠ ty := by split at hdy <;> omega
  have hck : (p.kind == PieceType.king && iabs (tx - fx) == 2) = false := by
    simp [hk]
  have hcp : (p.kind == PieceType.pawn && tx == g.epX && ty == g.epY) = true := by
    simp [hk, hepx, hepy]
  rw [executeMoveF, hp]
  simp only [hck, Bool.false_eq_true, if_false, hcp, if_true]
  refine ⟨_, rfl, ?_, ?_⟩
  · rw [bget_bset_ne (Or.inl hfxtx), bget_bset_ne (Or.inr (Ne.symm hfyty)),
      bget_bset_same ⟨htx.1, htx.2, hfy.1, hfy.2⟩]
  · rw [bget_bset_ne (Or.inl hfxtx), bget_bset_same ⟨htx.1, htx.2, hty.1, hty.2⟩]
    refine ⟨_, rfl, ?_⟩
    split <;> rfl

/-- C5 witness: the concrete en-passant position of the spec — a black pawn
has just double-stepped e7–e5 (target e6 = `(4, 2)`), the white pawn on d5
captures onto e6, and the black pawn disappears from e5 = `(4, 3)` while the
white pawn lands on e6. -/
theorem claim5_witness :
    ∃ g2, executeMoveF
        { baseGame (mkBoard [(3, 3, ⟨.pawn, .white, 6, true⟩),
            (4, 3, ⟨.pawn, .black, 0, true⟩)]) with epX := 4, epY := 2 }
        3 3 4 2 = some g2 ∧
      bget g2.board 4 3 = none ∧
      ∃ r, bget g2.board 4 2 = some r ∧
        r.color = ChessPiece.color ⟨.pawn, .white, 6, true⟩ := by
  exact claim5 _ ⟨.pawn, .white, 6, true⟩ ⟨.pawn, .black, 0, true⟩ 3 3 4 2
    (by decide) rfl (by decide) (by decide) (by decide) (by decide)
    (by decide) rfl rfl (by decide) (by decide) (by decide) (by decide)

/-! ### Claim C2 -/

/-- C2: when the side to move has no fully legal move, the update step marks
the game over; a winner (the opposing side's code) is recorded exactly when
that side is also in check (checkmate), and on stalemate the `winner` field
keeps its previous (no-winner) value. -/
theorem claim2 (fuel : Nat) (g g2 : Game)
    (h : updateEndCheckF fuel g = some g2)
    (hnm : hasLegalMovesF fuel g g.activeColor = some false) :
    g2.gameOver = true ∧
    (isInCheckF fuel g g.activeColor = some true →
      g2.winner = g.activeColor.opp.code) ∧
    (isInCheckF fuel g g.activeColor = some false → g2.winner = g.winner) := by
  rw [updateEndCheckF] at h
  split at h
  · cases h
  · rename_i heq
    exact absurd (heq.symm.trans hnm) (by simp)
  · split at h
    · cases h
    · rename_i hc
      simp only [Option.some.injEq] at h
      subst h
      exact ⟨rfl, fun he => absurd (hc.symm.trans he) (by simp), fun _ => rfl⟩
    · rename_i hc
      split at h
      · rename_i hw
        have hw2 : g.activeColor = .white := by
          revert hw
          cases g.activeColor <;> simp
        simp only [Option.some.injEq] at h
        subst h
        refine ⟨rfl, fun _ => ?_, fun he => absurd (hc.symm.trans he) (by simp)⟩
        rw [hw2]
        rfl
      · rename_i hw
        have hb2 : g.activeColor = .black := by
          revert hw
          cases g.activeColor <;> simp
        simp only [Option.some.injEq] at h
        subst h
        refine ⟨rfl, fun _ => ?_, fun he => absurd (hc.symm.trans he) (by simp)⟩
        rw [hb2]
        rfl

/-- C2 witness: on the empty board White has no move and no king in check,
so the terminal check marks the game over (a draw: no winner recorded). -/
theorem claim2_witness :
    ∃ g2, updateEndCheckF 0 (baseGame emptyBoard) = some g2 ∧ g2.gameOver = true := by
  have hnm := hasLegalMovesF_empty 0 (baseGame emptyBoard).activeColor
  have hu : updateEndCheckF 0 (baseGame emptyBoard) =
      some { baseGame emptyBoard with gameOver := true } := by
    rw [updateEndCheckF, hnm]
    rfl
  exact ⟨_, hu, (claim2 0 _ _ hu hnm).1⟩

/-! ### Claim C8 -/

/-- C8: an in-range human (White) move submission that is not pseudo-legal,
or whose application would leave White in check, is rejected with no change
to the board (hence to every piece's `HasMoved` flag), the side to move, the
en-passant target, or the move count. -/
theorem claim8 (fuel : Nat) (g : Game) (p : ChessPiece) (gx gy : Int)
    (hac : g.activeColor = .white)
    (hsel : ¬g.selectedX = -1)
    (hp : bget g.board g.selectedX g.selectedY = some p)
    (hpc : p.color = .white)
    (hgx : 0 ≤ gx ∧ gx < 8) (hgy : 0 ≤ gy ∧ gy < 8)
    (hrej : isMoveLegalF fuel g p g.selectedX g.selectedY gx gy = some false ∨
      (isMoveLegalF fuel g p g.selectedX g.selectedY gx gy = some true ∧
        isInCheckF fuel
          { g with board := simBoard g.board p g.selectedX g.selectedY gx gy }
          .white = some true)) :
    ∃ g2, submitClickF fuel g gx gy = some g2 ∧
      g2.board = g.board ∧ g2.activeColor = g.activeColor ∧
      g2.epX = g.epX ∧ g2.epY = g.epY ∧ g2.moveCount = g.moveCount := by
  rw [submitClickF, if_pos ⟨hgx.1, hgx.2, hgy.1, hgy.2⟩, if_neg hsel]
  rcases hrej with hr | ⟨hl, hc⟩
  · simp only [hp, hr]
    exact ⟨_, rfl, rfl, rfl, rfl, rfl, rfl⟩
  · simp only [hp, hl, hc]
    exact ⟨_, rfl, rfl, rfl, rfl, rfl, rfl⟩

/-- C8 witness: with a lone white pawn on a2 selected, the illegal submission
a2–h8 is rejected and the state (other than the cleared selection) is
untouched. -/
theorem claim8_witness :
    ∃ g2, submitClickF 0
        { baseGame (mkBoard [(0, 6, wPawn)]) with selectedX := 0, selectedY := 6 }
        7 0 = some g2 ∧
      g2.board = (baseGame (mkBoard [(0, 6, wPawn)])).board ∧
      g2.activeColor = Color.white ∧ g2.epX = -1 ∧ g2.epY = -1 ∧ g2.moveCount = 0 :=
  claim8 0 { baseGame (mkBoard [(0, 6, wPawn)]) with selectedX := 0, selectedY := 6 }
    wPawn 7 0 rfl (by decide) (by decide) rfl (by decide) (by decide)
    (Or.inl (by decide))

end Chess
